import Mathlib

/-!
Verification development for the `ts-docs-loader` repository.

This file gives a shallow embedding, in Lean, of the core data structures and
algorithms of the loader pipeline:

* the NodeId serialization helpers (`makeIdString`, `parseId`, `idToString`
  from `src/util.js`), modelled over `List Char` so that the behaviour of
  JavaScript's `String.prototype.split(':')` can be reasoned about directly;
* the `LoaderCache` (AST cache, export-map cache, symbol cache and
  `invalidateFile`);
* the documentation-node model and the linker / partial evaluator
  (`processCode`, `mergeInterface`/`mergeExtensions`, `omit`,
  `resolveValue`, `resolveUnionElements`, `walkLinks`, `processAsset`);
* the transformer side-channels (`addDependency`) and the requested-symbol
  filtering of the `transform` traversal;
* the export-graph resolver (`buildExportGraph`) and the dependency
  recursion of `load` with its in-progress cycle cut.

JavaScript recursion that is not structurally terminating (the linker walks
trees substituted from export maps, `resolveValue` chases link chains, `load`
recurses over the module graph) is embedded with an explicit fuel argument;
running out of fuel yields `none`, and theorems about such functions are
stated conditionally on a `some` result, or prove that an explicit fuel bound
suffices.  JavaScript objects used as ordered string-keyed maps are embedded
as association lists with JavaScript `Map.set` / object-assignment semantics
(replace in place, else append).
-/

namespace TsDocs

/-! ## NodeId serialization (`src/util.js`)

JavaScript strings are modelled as `List Char` here so that
`"<file>:<symbol>"` construction and `split(':')` are fully transparent.
-/

/-- `String.prototype.split(':')`: cut the character list at every `':'`.
JavaScript's split on an empty string yields `[""]`, and a trailing separator
yields a trailing empty segment, which this definition reproduces. -/
def splitOnColon : List Char → List (List Char)
  | [] => [[]]
  | c :: rest =>
    if c = ':' then [] :: splitOnColon rest
    else
      match splitOnColon rest with
      | [] => [[c]]
      | seg :: segs => (c :: seg) :: segs

/-- `NodeId` as used by the string helpers: a file path and a symbol name. -/
structure CharNodeId where
  file : List Char
  symbol : List Char
  deriving Repr, DecidableEq

/-- `makeIdString(file, symbol)` = `` `${file}:${symbol}` ``. -/
def makeIdString (file symbol : List Char) : List Char :=
  file ++ ':' :: symbol

/-- `idToString(id)` = `` `${id.file}:${id.symbol}` ``. -/
def idToString (id : CharNodeId) : List Char :=
  id.file ++ ':' :: id.symbol

/-- `parseId(idString)`: `const [file, symbol] = idString.split(':')`.
Destructuring keeps only the first two segments; when the string has no
colon the `symbol` component is JavaScript `undefined`, modelled as `none`. -/
def parseId (s : List Char) : List Char × Option (List Char) :=
  match splitOnColon s with
  | f :: sym :: _ => (f, some sym)
  | [f] => (f, none)
  | [] => ([], none)

theorem splitOnColon_ne_nil (s : List Char) : splitOnColon s ≠ [] := by
  induction s with
  | nil => simp [splitOnColon]
  | cons c rest ih =>
    simp only [splitOnColon]
    split
    · simp
    · cases h : splitOnColon rest with
      | nil => simp
      | cons seg segs => simp

theorem splitOnColon_no_colon (s : List Char) (h : ':' ∉ s) :
    splitOnColon s = [s] := by
  induction s with
  | nil => simp [splitOnColon]
  | cons c rest ih =>
    simp only [List.mem_cons, not_or] at h
    have hc : c ≠ ':' := fun hc => h.1 hc.symm
    simp [splitOnColon, hc, ih h.2]

theorem splitOnColon_append (f s : List Char) (hf : ':' ∉ f) :
    splitOnColon (f ++ ':' :: s) = f :: splitOnColon s := by
  induction f with
  | nil => simp [splitOnColon]
  | cons c rest ih =>
    simp only [List.mem_cons, not_or] at hf
    have hc : c ≠ ':' := fun hc => hf.1 hc.symm
    simp [splitOnColon, hc, ih hf.2]

/-- The first segment produced by splitting a list that contains a colon is
strictly shorter than the part before the split point. -/
theorem splitOnColon_head_shorter (f : List Char) (hf : ':' ∈ f) (rest : List Char) :
    ∀ seg segs, splitOnColon (f ++ rest) = seg :: segs → seg.length < f.length := by
  induction f with
  | nil => simp at hf
  | cons c tl ih =>
    intro seg segs hsplit
    rw [List.cons_append] at hsplit
    by_cases hc : c = ':'
    · subst hc
      rw [show splitOnColon (':' :: (tl ++ rest)) = [] :: splitOnColon (tl ++ rest) from by
        simp [splitOnColon]] at hsplit
      injection hsplit with h1 _
      rw [← h1]
      simp
    · have htl : ':' ∈ tl := by
        rcases List.mem_cons.mp hf with h | h
        · exact absurd h.symm hc
        · exact h
      cases h2 : splitOnColon (tl ++ rest) with
      | nil => exact absurd h2 (splitOnColon_ne_nil _)
      | cons seg2 segs2 =>
        rw [show splitOnColon (c :: (tl ++ rest)) = (c :: seg2) :: segs2 from by
          simp [splitOnColon, hc, h2]] at hsplit
        injection hsplit with h1 _
        have := ih htl seg2 segs2 h2
        rw [← h1]
        simpa using Nat.succ_lt_succ this

/-! ## Association-list map primitives

JavaScript `Map` and plain objects preserve insertion order.  `Map.set` /
`obj[k] = v` replace the value in place when the key exists and append the
entry otherwise; `Map.delete` removes the entry. -/

/-- `Map.get(k)` / `obj[k]`: first entry with the key, if any. -/
def alGet {κ α : Type} [DecidableEq κ] : List (κ × α) → κ → Option α
  | [], _ => none
  | e :: rest, k => if e.1 = k then some e.2 else alGet rest k

/-- `Map.set` / `obj[k] = v` semantics on an insertion-ordered map. -/
def jsSet {α : Type} (m : List (String × α)) (k : String) (v : α) : List (String × α) :=
  if (alGet m k).isSome then m.map fun e => if e.1 = k then (k, v) else e
  else m ++ [(k, v)]

/-- `Object.assign(target, source)`: set every entry of `source` on `target`
in order. -/
def jsAssign {α : Type} (target source : List (String × α)) : List (String × α) :=
  source.foldl (fun acc e => jsSet acc e.1 e.2) target

theorem alGet_append {κ α : Type} [DecidableEq κ] (m m2 : List (κ × α)) (k : κ) :
    alGet (m ++ m2) k = ((alGet m k).rec (alGet m2 k) fun v => some v) := by
  induction m with
  | nil => simp [alGet]
  | cons e rest ih =>
    by_cases he : e.1 = k <;> simp [alGet, he, ih]

theorem jsSet_alGet_self {α : Type} (m : List (String × α)) (k : String) (v : α) :
    alGet (jsSet m k v) k = some v := by
  unfold jsSet
  split
  case isTrue h =>
    induction m with
    | nil => simp [alGet] at h
    | cons e rest ih =>
      by_cases he : e.1 = k
      · simp [alGet, he]
      · simp only [alGet, if_neg he] at h
        simp [alGet, he, ih h]
  case isFalse h =>
    induction m with
    | nil => simp [alGet]
    | cons e rest ih =>
      by_cases he : e.1 = k
      · simp [alGet, he] at h
      · simp only [alGet, if_neg he] at h
        simp [alGet, he, ih h]

theorem alGet_map_overwrite {α : Type} (m : List (String × α)) (k q : String) (v : α)
    (h : q ≠ k) :
    alGet (m.map fun e => if e.1 = k then (k, v) else e) q = alGet m q := by
  induction m with
  | nil => simp
  | cons e rest ih =>
    by_cases he : e.1 = k
    · have : k ≠ q := fun hk => h hk.symm
      simp [alGet, he, this, ih]
    · by_cases hqe : e.1 = q <;> simp [alGet, he, hqe, h, ih]

theorem jsSet_alGet_other {α : Type} (m : List (String × α)) (k q : String) (v : α)
    (h : q ≠ k) : alGet (jsSet m k v) q = alGet m q := by
  unfold jsSet
  split
  · exact alGet_map_overwrite m k q v h
  · rw [alGet_append]
    cases hm : alGet m q with
    | none =>
      simp only [alGet]
      rw [if_neg (fun hk : k = q => h hk.symm)]
    | some w => simp

/-! ## LoaderCache (`src/cache.js`)

Three maps: the symbol cache keyed by `NodeId`, the export-map cache and the
AST cache keyed by absolute file path.  The payload types are opaque to the
cache and are kept as type parameters. -/

/-- `NodeId`: `{file, symbol}` (from `src/types.ts` / `util.makeId`). -/
structure NodeId where
  file : String
  symbol : String
  deriving Repr, DecidableEq

/-- `util.makeId(file, symbol)`. -/
def makeId (file symbol : String) : NodeId := ⟨file, symbol⟩

/-- The `LoaderCache` state: `symbolCache`, `exportCache`, `astCache`. -/
structure LoaderCache (α β γ : Type) where
  symbolCache : List (NodeId × α)
  exportCache : List (String × β)
  astCache : List (String × γ)
  deriving Repr

/-- Look up a `NodeId` key in the symbol cache (`getCachedSymbol`). -/
def getCachedSymbol {α β γ : Type} (c : LoaderCache α β γ) (id : NodeId) : Option α :=
  alGet c.symbolCache id

/-- `getExportsFromFile`. -/
def getExportsFromFile {α β γ : Type} (c : LoaderCache α β γ) (filePath : String) : Option β :=
  alGet c.exportCache filePath

/-- `getAST`. -/
def getAST {α β γ : Type} (c : LoaderCache α β γ) (filePath : String) : Option γ :=
  alGet c.astCache filePath

/-- `deleteSymbolsFromFile(filePath)`: iterate the symbol-cache keys and
delete every entry whose `id.file` equals the path, returning the deleted
symbol names. -/
def deleteSymbolsFromFile {α β γ : Type} (c : LoaderCache α β γ) (filePath : String) :
    LoaderCache α β γ × List String :=
  ({ c with symbolCache := c.symbolCache.filter fun e => e.1.file ≠ filePath },
   (c.symbolCache.filter fun e => e.1.file = filePath).map fun e => e.1.symbol)

/-- `invalidateFile(filePath)`: delete the export-map entry, all symbols from
the file, and the cached AST. -/
def invalidateFile {α β γ : Type} (c : LoaderCache α β γ) (filePath : String) :
    LoaderCache α β γ :=
  let c1 := { c with exportCache := c.exportCache.filter fun e => e.1 ≠ filePath }
  let c2 := (deleteSymbolsFromFile c1 filePath).1
  { c2 with astCache := c2.astCache.filter fun e => e.1 ≠ filePath }

/-- Filtering out entries that all fail to have key `q` does not change the
lookup at `q`. -/
theorem alGet_filter {κ α : Type} [DecidableEq κ] (m : List (κ × α)) (f : κ × α → Bool)
    (q : κ) (hq : ∀ v, f (q, v) = true) : alGet (m.filter f) q = alGet m q := by
  induction m with
  | nil => simp
  | cons e rest ih =>
    by_cases hfe : f e = true
    · by_cases he : e.1 = q <;> simp [List.filter, hfe, alGet, he, ih]
    · have he : e.1 ≠ q := by
        intro he
        exact hfe (by rw [show e = (q, e.2) from Prod.ext he rfl]; exact hq e.2)
      simp [List.filter, hfe, alGet, he, ih]

/-! ## Documentation-node model (`@faulty/ts-docs-node-types`)

The node variants needed by the linker claims.  `properties` maps are
insertion-ordered association lists, as JavaScript objects are.  `strN none`
is the keyword type `string`; `strN (some v)` the literal type `"v"`.
`bare` models the untyped `{name}` object produced by cloning a missing
export (`{...undefined}` followed by `clone.name = exported`). -/

inductive Node where
  | anyN
  | strN (value : Option String)
  | numN (value : Option String)
  | boolN (value : Option String)
  | union (elements : List Node)
  | identifier (name : String)
  | reference (lcl imported specifier : String)
  | link (id : String)
  | application (base : Node) (typeParameters : List Node)
  | alias (id name : String) (value : Node) (typeParameters : List Node)
  | iface (id name : String) (exts : List Node) (properties : List (String × Node))
      (typeParameters : List Node)
  | objectN (properties : List (String × Node))
  | property (name : String) (value : Node) (optional : Bool) (inheritedFrom : Option String)
  | methodN (name : String) (value : Node) (optional : Bool) (inheritedFrom : Option String)
  | keyofN (value : Node)
  | typeParameter (name : String) (constraint : Option Node) (dflt : Option Node)
  | component (id name : String) (props : Option Node) (typeParameters : List Node)
  | bare (name : String)
  deriving Repr

/-- The `Asset` bundle exchanged between orchestrator and linker:
`{id, exports, links, symbols}`. -/
structure Asset where
  id : String
  exports : List (String × Node)
  links : List (String × Node)
  symbols : List (String × String)
  deriving Repr

/-- Reading the `.id` field of an arbitrary node (`ext.id` in `mergeInterface`,
`obj.id` in the walker's cycle cut): only these variants carry one. -/
def nodeIdOf : Node → Option String
  | .link id => some id
  | .alias id _ _ _ => some id
  | .iface id _ _ _ _ => some id
  | .component id _ _ _ => some id
  | _ => none

/-- Reading the `.name` field of an arbitrary node (`p.name` in the
type-parameter binding loops). -/
def nodeNameOf : Node → Option String
  | .identifier n => some n
  | .alias _ n _ _ => some n
  | .iface _ n _ _ _ => some n
  | .typeParameter n _ _ => some n
  | .component _ n _ _ => some n
  | .property n _ _ _ => some n
  | .methodN n _ _ _ => some n
  | .bare n => some n
  | _ => none

/-- `p.constraint` where `p` is expected to be a type parameter. -/
def nodeConstraintOf : Node → Option Node
  | .typeParameter _ c _ => c
  | _ => none

/-- `p.default` where `p` is expected to be a type parameter. -/
def nodeDfltOf : Node → Option Node
  | .typeParameter _ _ d => d
  | _ => none

/-- `clone.name = exported` after `{...node}`: overwrite the name field where
the variant has one (on other variants JavaScript attaches an inert field). -/
def setNodeName (n : Node) (nm : String) : Node :=
  match n with
  | .identifier _ => .identifier nm
  | .alias id _ v tps => .alias id nm v tps
  | .iface id _ exts props tps => .iface id nm exts props tps
  | .typeParameter _ c d => .typeParameter nm c d
  | .component id _ props tps => .component id nm props tps
  | .property _ v o ih => .property nm v o ih
  | .methodN _ v o ih => .methodN nm v o ih
  | .bare _ => .bare nm
  | other => other

/-! ## merge-extensions (`mergeInterface`/`merge` in the linker,
`evaluator/extends.js`) -/

/-- The spread `{inheritedFrom, ...source[key]}` of `merge`: the explicit
`inheritedFrom` is overridden when the source property carries its own.
On nodes without the field JavaScript attaches an inert one. -/
def withInherited (ih : Option String) : Node → Node
  | .property n v o none => .property n v o ih
  | .methodN n v o none => .methodN n v o ih
  | other => other

/-- `merge(target, source, inheritedFrom)`: copy every property of `source`
onto `target` (overwriting same-named entries), stamping `inheritedFrom`. -/
def mergeProps (target source : List (String × Node)) (ih : Option String) :
    List (String × Node) :=
  source.foldl (fun tgt e => jsSet tgt e.1 (withInherited ih e.2)) target

/-- The head unwrap of `mergeInterface`: an application merges its base, an
alias its value. -/
def unwrapBase : Node → Node
  | .application base _ => base
  | .alias _ _ v _ => v
  | x => x

mutual

/-- `mergeInterface(obj)` / `mergeExtensions(base)`: unwrap an application or
alias, then flatten all extension properties (most recently merged wins) and
finally the interface's own properties, each stamped with the id of the node
they were copied from. -/
def mergeExtensions : Nat → Node → Option Node
  | 0, _ => none
  | f+1, b0 =>
    let b := unwrapBase b0
    match b with
    | .iface id nm exts props tps => do
        let (accP, accE) ← mergeExtList f exts [] []
        some (.iface id nm accE (mergeProps accP props (some id)) tps)
    | x => some x

/-- The `for (const ext of obj.extends)` loop of `mergeInterface`. -/
def mergeExtList : Nat → List Node → List (String × Node) → List Node →
    Option (List (String × Node) × List Node)
  | 0, _, _, _ => none
  | _+1, [], accP, accE => some (accP, accE)
  | f+1, ext :: rest, accP, accE => do
      let merged ← mergeExtensions f ext
      match merged with
      | .iface _ _ _ mprops _ => mergeExtList f rest (mergeProps accP mprops (nodeIdOf ext)) accE
      | m => mergeExtList f rest accP (accE ++ [m])

end

/-! ## Resolver helpers (`resolveLink`, `resolveValue`,
`resolveUnionElements`) -/

/-- `resolveLink(id)`: the local node table first, then each dependency's
`links` in order. -/
def resolveLink (nodes : List (String × Node)) (deps : List (String × Asset)) (id : String) :
    Option Node :=
  match alGet nodes id with
  | some n => some n
  | none => deps.findSome? fun d => alGet d.2.links id

/-- `resolveValue(obj)`: collapse links (via the node table and dependency
links), applications (to their base) and aliases (to their value). -/
def resolveValue : Nat → List (String × Node) → List (String × Asset) → Node → Option Node
  | 0, _, _, _ => none
  | f+1, nodes, deps, obj =>
    match obj with
    | .link id =>
      match resolveLink nodes deps id with
      | none => some (.link id)
      | some r => resolveValue f nodes deps r
    | .application base _ => resolveValue f nodes deps base
    | .alias _ _ v _ => resolveValue f nodes deps v
    | x => some x

mutual

/-- `resolveUnionElements(base)`: flatten nested unions reached through
aliases and links into a flat element list. -/
def resolveUnionElements : Nat → List (String × Node) → List (String × Asset) → Node →
    Option (List Node)
  | 0, _, _, _ => none
  | f+1, nodes, deps, b =>
    match b with
    | .union els => rueElems f nodes deps els
    | x => some [x]

/-- The `flatMap` body of `resolveUnionElements`: resolve each element; a
resolved union is flattened recursively, anything else (strings included)
is kept as a single element. -/
def rueElems : Nat → List (String × Node) → List (String × Asset) → List Node →
    Option (List Node)
  | 0, _, _, _ => none
  | _+1, _, _, [] => some []
  | f+1, nodes, deps, e :: rest => do
      let r ← resolveValue f nodes deps e
      let hd ← match r with
        | .union els2 => rueElems f nodes deps els2
        | x => pure [x]
      let tl ← rueElems f nodes deps rest
      pure (hd ++ tl)

end

/-! ## `Omit` evaluation (`performOmit` / `Packager.omit`) -/

/-- Collect the set of keys to omit, as `performOmit` does: a single string
literal contributes its value (skipped when falsy, i.e. empty); a union is
flattened with `resolveUnionElements` and every string element with a
non-null value contributes.  The JavaScript `Set` is modelled as a
duplicate-free list. -/
def omitCollectKeys (f : Nat) (nodes : List (String × Node)) (deps : List (String × Asset))
    (toOmit : Node) : Option (List String) :=
  match toOmit with
  | .strN (some v) => some (if v = "" then [] else [v])
  | .union _ => do
      let els ← resolveUnionElements f nodes deps toOmit
      some (els.foldl (fun acc e =>
        match e with
        | .strN (some v) => if acc.contains v then acc else acc ++ [v]
        | _ => acc) [])
  | _ => some []

/-- `performOmit(base, toOmit)` (`evaluator/omit.js`, identical to
`Packager.omit`): resolve both arguments; on an interface or object with a
non-empty key set, rebuild the node keeping only properties whose key is not
omitted; otherwise return the resolved base unchanged. -/
def performOmit (f : Nat) (nodes : List (String × Node)) (deps : List (String × Asset))
    (base0 toOmit0 : Node) : Option Node := do
  let base ← resolveValue f nodes deps base0
  let toOmit ← resolveValue f nodes deps toOmit0
  match base with
  | .iface id nm exts props tps => do
      let keys ← omitCollectKeys f nodes deps toOmit
      if keys = [] then pure (.iface id nm exts props tps)
      else pure (.iface id nm exts (props.filter fun e => ¬ keys.contains e.1) tps)
  | .objectN props => do
      let keys ← omitCollectKeys f nodes deps toOmit
      if keys = [] then pure (.objectN props)
      else pure (.objectN (props.filter fun e => ¬ keys.contains e.1))
  | x => pure x

/-! ## The linker walker (`Packager.processCode` and `walk`)

The walker state: the pending `application` vector, the type-parameter
stack, the key stack, and the instance-level node table.  Parameter frames
map names to `Option Node`, where `none` models a binding to JavaScript
`undefined` (created when an application is shorter than the parameter list
and the parameter has no default); such a binding reads as absent. -/

structure LinkCtx where
  asset : Asset
  deps : List (String × Asset)
  deriving Repr

structure WalkSt where
  app : Option (List Node)
  paramStack : List (List (String × Option Node))
  keyStack : List (Option String)
  nodes : List (String × Node)
  deriving Repr

/-- The initial walker state of one `processCode` call over a node table. -/
def initSt (nodes : List (String × Node)) : WalkSt :=
  ⟨none, [], [], nodes⟩

/-- `shouldMerge(t, k, keyStack)`. -/
def shouldMerge (t : Node) (k : Option String) (keyStack : List (Option String)) : Bool :=
  let lastKey := keyStack.headD none
  let baseCase := k == some "base" && (lastKey == some "props" || lastKey == some "extends")
  match t with
  | .iface _ _ _ _ _ =>
      (k == none || k == some "props" || k == some "extends" || k == some "keyof") || baseCase
  | .alias _ _ _ _ => baseCase
  | _ => false

/-- `params[p.name] = application[i] || p.default` over the raw
type-parameter list.  A parameter with no name is skipped (JavaScript would
key it under the string `"undefined"`, unreachable by real names). -/
def bindAppParams : List (String × Option Node) → List Node → List Node → Nat →
    List (String × Option Node)
  | ps, [], _, _ => ps
  | ps, p :: rest, app, i =>
      let ps' := match nodeNameOf p with
        | some nm =>
            jsSet ps nm (match app.get? i with
              | some v => some v
              | none => nodeDfltOf p)
        | none => ps
      bindAppParams ps' rest app (i+1)

/-- JavaScript falsiness of `params[name]`: the key is absent or bound to
`undefined`. -/
def paramFalsy : Option (Option Node) → Bool
  | none => true
  | some none => true
  | some (some _) => false

/-- `if (!params[p.name] && p.constraint) params[p.name] = p.constraint`
over the visited type-parameter list (the root-export branch). -/
def bindConstraintParams : List (String × Option Node) → List Node →
    List (String × Option Node)
  | ps, [] => ps
  | ps, p :: rest =>
      let ps' := match nodeNameOf p with
        | some nm =>
            if paramFalsy (alGet ps nm) then
              match nodeConstraintOf p with
              | some c => jsSet ps nm (some c)
              | none => ps
            else ps
        | none => ps
      bindConstraintParams ps' rest

mutual

/-- One `walkerFn` invocation of `processCode` on a node with its key: the
reference-resolution step, then the rest of the rewrite pipeline. -/
def visit : Nat → LinkCtx → WalkSt → Option String → Node → Option (Node × WalkSt)
  | 0, _, _, _, _ => none
  | f+1, ctx, st, k, t =>
    match t with
    | .reference lcl imported spec =>
        let a := (alGet ctx.deps spec).getD ctx.asset
        match alGet a.exports imported with
        | some result => visitRest f ctx st k result
        | none => some (.identifier lcl, st)
    | t => visitRest f ctx st k t

/-- The second branch of the type-parameter gathering: at a root export
(`keyStack` empty), bind each type parameter to its constraint. -/
def visitRootParams : Nat → LinkCtx → WalkSt → Node → Option (Bool × WalkSt)
  | 0, _, _, _ => none
  | f+1, ctx, st, t =>
    match t with
    | .alias _ _ _ tps | .iface _ _ _ _ tps | .component _ _ _ tps =>
        if st.keyStack.isEmpty then do
          let (tps', st') ← visitList f ctx st (some "typeParameters") tps
          let params := bindConstraintParams (st'.paramStack.headD []) tps'
          pure (true, { st' with paramStack := params :: st'.paramStack })
        else pure (false, st)
    | _ => pure (false, st)

/-- The rewrite pipeline of `processCode` after reference resolution:
pending-application capture, type-parameter frames, child recursion, and the
application / `Omit` / parameter-substitution / interface / alias / `keyof`
rewrites, in source order. -/
def visitRest : Nat → LinkCtx → WalkSt → Option String → Node → Option (Node × WalkSt)
  | 0, _, _, _, _ => none
  | f+1, ctx, st0, k, t => do
      let st1 ←
        match t with
        | .application _ tps => do
            let (tps', st') ← visitList f ctx st0 (some "typeParameters") tps
            pure { st' with app := some tps' }
        | _ => pure st0
      let (hasParams, st2) ←
        match t with
        | .alias _ _ _ tps | .iface _ _ _ _ tps =>
          match st1.app with
          | some app =>
              if shouldMerge t k st1.keyStack then
                let params := bindAppParams (st1.paramStack.headD []) tps app 0
                pure (true, { st1 with paramStack := params :: st1.paramStack, app := none })
              else visitRootParams f ctx st1 t
          | none => visitRootParams f ctx st1 t
        | _ => visitRootParams f ctx st1 t
      let st3 := { st2 with keyStack := k :: st2.keyStack }
      let (t1, st4) ← recurseNode f ctx st3 k t
      let st5 := { st4 with keyStack := st4.keyStack.tail }
      let st6 := if hasParams then { st5 with paramStack := st5.paramStack.tail } else st5
      let params := st6.paramStack.head?
      match t1 with
      | .application base _ =>
          let st7 := { st6 with app := none }
          if k == some "props" then pure (base, st7) else pure (t1, st7)
      | .identifier nm =>
          if nm = "Omit" then
            match st6.app with
            | some app =>
                match app.get? 0, app.get? 1 with
                | some a0, some a1 => do
                    let r ← performOmit f st6.nodes ctx.deps a0 a1
                    pure (r, st6)
                | _, _ => none
            | none =>
                match params.bind (fun ps => alGet ps nm) with
                | some (some v) => pure (v, st6)
                | _ => pure (t1, st6)
          else
            match params.bind (fun ps => alGet ps nm) with
            | some (some v) => pure (v, st6)
            | _ => pure (t1, st6)
      | .iface id _ _ _ _ => do
          let merged ← mergeExtensions f t1
          let st7 :=
            if (alGet st6.nodes id).isNone then { st6 with nodes := st6.nodes ++ [(id, merged)] }
            else st6
          if shouldMerge t1 k st7.keyStack then pure (merged, st7)
          else pure (.link id, st7)
      | .alias id _ v _ =>
          if k == some "props" then pure (v, st6)
          else
            let st7 :=
              if (alGet st6.nodes id).isNone then { st6 with nodes := st6.nodes ++ [(id, t1)] }
              else st6
            pure (.link id, st7)
      | .keyofN v =>
          match v with
          | .iface _ _ _ props _ => pure (.union (props.map fun e => .strN (some e.1)), st6)
          | _ => pure (t1, st6)
      | _ => pure (t1, st6)

/-- The generic walk's `recurse(t)`: rebuild the node, visiting every
object-valued field (in the field order the transformer constructs nodes
with) and every array element, with the field name as the key.  A
`properties` record is itself an object: its visit pushes `"properties"`
onto the key stack and each property is visited under its own name. -/
def recurseNode : Nat → LinkCtx → WalkSt → Option String → Node → Option (Node × WalkSt)
  | 0, _, _, _, _ => none
  | f+1, ctx, st, _k, t =>
    match t with
    | .union els => do
        let (els', st') ← visitList f ctx st (some "elements") els
        pure (.union els', st')
    | .application base tps => do
        let (base', st1) ← visit f ctx st (some "base") base
        let (tps', st2) ← visitList f ctx st1 (some "typeParameters") tps
        pure (.application base' tps', st2)
    | .alias id nm v tps => do
        let (v', st1) ← visit f ctx st (some "value") v
        let (tps', st2) ← visitList f ctx st1 (some "typeParameters") tps
        pure (.alias id nm v' tps', st2)
    | .iface id nm exts props tps => do
        let (exts', st1) ← visitList f ctx st (some "extends") exts
        let st1p := { st1 with keyStack := some "properties" :: st1.keyStack }
        let (props', st2) ← visitProps f ctx st1p props
        let st2p := { st2 with keyStack := st2.keyStack.tail }
        let (tps', st3) ← visitList f ctx st2p (some "typeParameters") tps
        pure (.iface id nm exts' props' tps', st3)
    | .objectN props => do
        let st1p := { st with keyStack := some "properties" :: st.keyStack }
        let (props', st2) ← visitProps f ctx st1p props
        let st2p := { st2 with keyStack := st2.keyStack.tail }
        pure (.objectN props', st2p)
    | .property nm v opt ih => do
        let (v', st1) ← visit f ctx st (some "value") v
        pure (.property nm v' opt ih, st1)
    | .methodN nm v opt ih => do
        let (v', st1) ← visit f ctx st (some "value") v
        pure (.methodN nm v' opt ih, st1)
    | .keyofN v => do
        let (v', st1) ← visit f ctx st (some "keyof") v
        pure (.keyofN v', st1)
    | .typeParameter nm c d => do
        let (c', st1) ←
          match c with
          | some cv => do
              let (cv', st') ← visit f ctx st (some "constraint") cv
              pure (some cv', st')
          | none => pure (none, st)
        let (d', st2) ←
          match d with
          | some dv => do
              let (dv', st') ← visit f ctx st1 (some "default") dv
              pure (some dv', st')
          | none => pure (none, st1)
        pure (.typeParameter nm c' d', st2)
    | .component id nm props tps => do
        let (props', st1) ←
          match props with
          | some pv => do
              let (pv', st') ← visit f ctx st (some "props") pv
              pure (some pv', st')
          | none => pure (none, st)
        let (tps', st2) ← visitList f ctx st1 (some "typeParameters") tps
        pure (.component id nm props' tps', st2)
    | other => pure (other, st)

/-- Array recursion of the walk: each item is visited with the array's key. -/
def visitList : Nat → LinkCtx → WalkSt → Option String → List Node →
    Option (List Node × WalkSt)
  | 0, _, _, _, _ => none
  | _+1, _, st, _, [] => pure ([], st)
  | f+1, ctx, st, k, x :: xs => do
      let (x', st1) ← visit f ctx st k x
      let (xs', st2) ← visitList f ctx st1 k xs
      pure (x' :: xs', st2)

/-- Visiting a `properties` record: each property node is visited with its
own name as key. -/
def visitProps : Nat → LinkCtx → WalkSt → List (String × Node) →
    Option (List (String × Node) × WalkSt)
  | 0, _, _, _ => none
  | _+1, _, st, [] => pure ([], st)
  | f+1, ctx, st, (nm, x) :: xs => do
      let (x', st1) ← visit f ctx st (some nm) x
      let (xs', st2) ← visitProps f ctx st1 xs
      pure ((nm, x') :: xs', st2)

end

/-- `processCode(obj)`: walk every export with a `null` key, threading the
walker state (the key and parameter stacks and pending application are shared
over the whole walk) and the node table. -/
def processCode : Nat → LinkCtx → WalkSt → List (String × Node) →
    Option (List (String × Node) × WalkSt)
  | 0, _, _, _ => none
  | _+1, _, st, [] => pure ([], st)
  | f+1, ctx, st, (nm, x) :: xs => do
      let (x', st1) ← visit f ctx st none x
      let (xs', st2) ← processCode f ctx st1 xs
      pure ((nm, x') :: xs', st2)

/-! ## Packager / Linker assembly (`run`, `processAsset`, `_processAsset`,
`getSymbolResolution`, `walkLinks`) -/

/-- `getSymbolResolution(asset, symbol)`: the first dependency whose symbol
map knows the name wins; otherwise the symbol resolves to the asset itself. -/
def getSymbolResolution (deps : List (String × Asset)) (asset : Asset) (symbol : String) :
    Asset × String :=
  match deps.findSome? (fun d => (alGet d.2.symbols symbol).map fun es => (d.2, es)) with
  | some r => r
  | none => (asset, symbol)

/-- The state shared across `processAsset` calls: the instance node table and
the per-run asset cache. -/
structure PkgSt where
  nodes : List (String × Node)
  cache : List (String × List (String × Node))
  deriving Repr

mutual

/-- `processAsset(asset)` with its per-run cache.  JavaScript inserts an
empty result object into the cache before processing and mutates it in
place, so a re-entrant read observes a partial (here: empty) result; the
completed result is what the cache holds afterwards. -/
def processAsset : Nat → List (String × Asset) → PkgSt → Asset →
    Option (List (String × Node) × PkgSt)
  | 0, _, _, _ => none
  | f+1, deps, ps, asset =>
    match alGet ps.cache asset.id with
    | some res => some (res, ps)
    | none => do
        let ps1 := { ps with cache := jsSet ps.cache asset.id [] }
        let (res, ps2) ← processAssetBody f deps ps1 asset
        pure (res, { ps2 with cache := jsSet ps2.cache asset.id res })

/-- `_processAsset(asset, res)`: process the asset's own code, then resolve
every exported symbol, then copy the exports of wildcard dependencies. -/
def processAssetBody : Nat → List (String × Asset) → PkgSt → Asset →
    Option (List (String × Node) × PkgSt)
  | 0, _, _, _ => none
  | f+1, deps, ps, asset => do
      let ctx : LinkCtx := ⟨asset, deps⟩
      let (obj, wst) ← processCode f ctx (initSt ps.nodes) asset.exports
      let ps1 := { ps with nodes := wst.nodes }
      let res0 := jsAssign [] obj
      let (res1, ps2) ← symbolsLoop f deps ps1 asset obj res0 asset.symbols
      wildcardLoop f deps ps2 res1 deps

/-- Step 4 of `_processAsset`: the `for (const [local, exported] of
asset.symbols)` loop, with the renamed-export clone
(`{...processed[exportSymbol]}; clone.name = exported`). -/
def symbolsLoop : Nat → List (String × Asset) → PkgSt → Asset → List (String × Node) →
    List (String × Node) → List (String × String) → Option (List (String × Node) × PkgSt)
  | 0, _, _, _, _, _, _ => none
  | _+1, _, ps, _, _, res, [] => some (res, ps)
  | f+1, deps, ps, asset, obj, res, (lcl, exported) :: rest => do
      let (resolvedAsset, exportSymbol) := getSymbolResolution deps asset lcl
      let (processed, ps1) ←
        if resolvedAsset.id = asset.id then pure (obj, ps)
        else processAsset f deps ps resolvedAsset
      let res' :=
        if exportSymbol = "*" then jsAssign res processed
        else if exportSymbol ≠ exported then
          match alGet processed exportSymbol with
          | some n => jsSet res exported (setNodeName n exported)
          | none => jsSet res exported (.bare exported)
        else
          match alGet processed exportSymbol with
          | some n => jsSet res exported n
          | none => res
      symbolsLoop f deps ps1 asset obj res' rest

/-- Step 5 of `_processAsset`: every dependency whose symbol map contains the
true wildcard `'*' → '*'` has all of its exports copied over the result. -/
def wildcardLoop : Nat → List (String × Asset) → PkgSt → List (String × Node) →
    List (String × Asset) → Option (List (String × Node) × PkgSt)
  | 0, _, _, _, _ => none
  | _+1, _, ps, res, [] => some (res, ps)
  | f+1, deps, ps, res, d :: rest => do
      if alGet d.2.symbols "*" = some "*" then do
        let (processed, ps1) ← processAsset f deps ps d.2
        wildcardLoop f deps ps1 (jsAssign res processed) rest
      else wildcardLoop f deps ps res rest

end

/-- `saveLink(id)`: store the resolved target of a link id in the links map
(the local node table first, then dependency links), or nothing when the
target is unknown. -/
def saveLink (nodes : List (String × Node)) (deps : List (String × Asset))
    (links : List (String × Node)) (id : String) : List (String × Node) :=
  match resolveLink nodes deps id with
  | some v => jsSet links id v
  | none => links

mutual

/-- The `walkLinks` walker body applied to one node: a link id not yet saved
is saved and its stored node is walked; a property or method with
`inheritedFrom` saves that id; then the children are walked. -/
def wlVisit : Nat → List (String × Node) → List (String × Asset) → List (String × Node) →
    Node → Option (List (String × Node))
  | 0, _, _, _, _ => none
  | f+1, nodes, deps, links, t => do
      let links1 ←
        match t with
        | .link id =>
            if (alGet links id).isNone then
              let links' := saveLink nodes deps links id
              match alGet nodes id with
              | some n => wlChildren f nodes deps links' n
              | none => pure links'
            else pure links
        | .property _ _ _ (some ih) => pure (saveLink nodes deps links ih)
        | .methodN _ _ _ (some ih) => pure (saveLink nodes deps links ih)
        | _ => pure links
      wlChildren f nodes deps links1 t

/-- `walkLinks(node)` on an object: walk every field value. -/
def wlChildren : Nat → List (String × Node) → List (String × Asset) → List (String × Node) →
    Node → Option (List (String × Node))
  | 0, _, _, _, _ => none
  | f+1, nodes, deps, links, t =>
    match t with
    | .union els => wlList f nodes deps links els
    | .application base tps => do
        let links1 ← wlVisit f nodes deps links base
        wlList f nodes deps links1 tps
    | .alias _ _ v tps => do
        let links1 ← wlVisit f nodes deps links v
        wlList f nodes deps links1 tps
    | .iface _ _ exts props tps => do
        let links1 ← wlList f nodes deps links exts
        let links2 ← wlProps f nodes deps links1 props
        wlList f nodes deps links2 tps
    | .objectN props => wlProps f nodes deps links props
    | .property _ v _ _ => wlVisit f nodes deps links v
    | .methodN _ v _ _ => wlVisit f nodes deps links v
    | .keyofN v => wlVisit f nodes deps links v
    | .typeParameter _ c d => do
        let links1 ← match c with
          | some cv => wlVisit f nodes deps links cv
          | none => pure links
        match d with
        | some dv => wlVisit f nodes deps links1 dv
        | none => pure links1
    | .component _ _ props tps => do
        let links1 ← match props with
          | some pv => wlVisit f nodes deps links pv
          | none => pure links
        wlList f nodes deps links1 tps
    | _ => pure links

def wlList : Nat → List (String × Node) → List (String × Asset) → List (String × Node) →
    List Node → Option (List (String × Node))
  | 0, _, _, _, _ => none
  | _+1, _, _, links, [] => pure links
  | f+1, nodes, deps, links, x :: xs => do
      let links1 ← wlVisit f nodes deps links x
      wlList f nodes deps links1 xs

def wlProps : Nat → List (String × Node) → List (String × Asset) → List (String × Node) →
    List (String × Node) → Option (List (String × Node))
  | 0, _, _, _, _ => none
  | _+1, _, _, links, [] => pure links
  | f+1, nodes, deps, links, (_, x) :: xs => do
      let links1 ← wlVisit f nodes deps links x
      wlProps f nodes deps links1 xs

end

/-- `walkLinks(result)` over the whole result map. -/
def walkLinksTop : Nat → List (String × Node) → List (String × Asset) → List (String × Node) →
    List (String × Node) → Option (List (String × Node))
  | 0, _, _, _, _ => none
  | _+1, _, _, links, [] => pure links
  | f+1, nodes, deps, links, (_, x) :: xs => do
      let links1 ← wlVisit f nodes deps links x
      walkLinksTop f nodes deps links1 xs

/-- The result of one linker run: `{exports, links}`. -/
structure LoadResult where
  exports : List (String × Node)
  links : List (String × Node)
  deriving Repr

/-- `Packager.run()` (without the catch-all error handler): process the
entry asset, then collect all links reachable from the result. -/
def runPackager (f : Nat) (asset : Asset) (deps : List (String × Asset)) :
    Option LoadResult := do
  let (res, ps) ← processAsset f deps ⟨[], []⟩ asset
  let links ← walkLinksTop f ps.nodes deps [] res
  pure ⟨res, links⟩

/-! ## Transformer dependency records (`Transformer.addDependency`) -/

/-- One entry of `Transformer.dependencies`:
`{path, symbols: Map<string,string>}`. -/
structure Dependency where
  path : String
  symbols : List (String × String)
  deriving Repr, DecidableEq

/-- Amend the symbols of the first dependency entry with the given path
(`const existing = this.dependencies.find(...)`, then `existing.symbols.set`
for each entry). -/
def amendFirst : List Dependency → String → List (String × String) → List Dependency
  | [], _, _ => []
  | d :: ds, p, syms =>
      if d.path = p then
        { d with symbols := syms.foldl (fun m e => jsSet m e.1 e.2) d.symbols } :: ds
      else d :: amendFirst ds p syms

/-- `addDependency(filePath, symbols)`: when an entry with the path exists
its symbol map is amended, and the new record is pushed onto the list
unconditionally. -/
def addDependency (depsList : List Dependency) (filePath : String)
    (symbols : List (String × String)) : List Dependency :=
  let amended :=
    if depsList.any fun d => d.path = filePath then amendFirst depsList filePath symbols
    else depsList
  amended ++ [⟨filePath, symbols⟩]

/-! ## The `transform` export traversal (`loader.js`)

The statements a file's AST contributes to the `ExportNamedDeclaration` /
`ExportAllDeclaration` visitors, abstracted from Babel paths: re-exports
with a source, exported declarations, local rebinding exports (with the
resolved binding's node, `none` when the binding is not found), and
wildcard re-exports. -/

inductive ExportSpecifier where
  /-- `export {Foo as Bar} from 'x'`: source name `Foo`, export name `Bar`. -/
  | named (sourceName exportName : String)
  /-- `export * as Foo from 'x'`. -/
  | nspace (exportName : String)
  deriving Repr, DecidableEq

inductive Stmt where
  | exportFrom (source : String) (specs : List ExportSpecifier)
  | exportDecl (name : String) (node : Node)
  /-- `export {Foo as F}`: entries `(localName, exportName, binding)`. -/
  | exportLocal (specs : List (String × String × Option Node))
  | exportAll (source : String)

/-- The `transform` output: `{symbols, exportedNodes, dependencies}`. -/
structure TransformResult where
  symbols : List (String × String)
  exportedNodes : List (String × Node)
  dependencies : List Dependency

/-- `isSymbolRequested(symbol)`:
`requestedSymbols == null || requestedSymbols.includes(symbol)`. -/
def isSymbolRequested (req : Option (List String)) (s : String) : Bool :=
  match req with
  | none => true
  | some rs => rs.contains s

/-- One `ExportNamedDeclaration` / `ExportAllDeclaration` visit of
`transform`.  Note that the local-rebinding branch filters on the *local*
name of each specifier. -/
def transformStmt (req : Option (List String)) (acc : TransformResult) :
    Stmt → TransformResult
  | .exportFrom src specs =>
      let step := specs.foldl (fun (p : List (String × String) × List (String × String)) spec =>
        match spec with
        | .named sourceName exportName =>
            if isSymbolRequested req exportName then
              (jsSet p.1 exportName exportName, jsSet p.2 exportName sourceName)
            else p
        | .nspace exportName =>
            if isSymbolRequested req exportName then
              (jsSet p.1 exportName exportName, jsSet p.2 exportName "*")
            else p) (acc.symbols, [])
      if step.2.isEmpty then { acc with symbols := step.1 }
      else { acc with
              symbols := step.1
              dependencies := addDependency acc.dependencies src step.2 }
  | .exportDecl name node =>
      if isSymbolRequested req name then
        { acc with
            symbols := jsSet acc.symbols name name
            exportedNodes := jsSet acc.exportedNodes name node }
      else acc
  | .exportLocal specs =>
      specs.foldl (fun acc s =>
        if isSymbolRequested req s.1 then
          match s.2.2 with
          | some value =>
              let value' := if (nodeNameOf value).isSome then setNodeName value s.2.1 else value
              { acc with
                  exportedNodes := jsSet acc.exportedNodes s.2.1 value'
                  symbols := jsSet acc.symbols s.1 s.2.1 }
          | none => acc
        else acc) acc
  | .exportAll src =>
      { acc with dependencies := addDependency acc.dependencies src [("*", "*")] }

/-- `transform(ast, filePath, requestedSymbols)`, as a fold over the file's
export statements. -/
def transform (stmts : List Stmt) (req : Option (List String)) : TransformResult :=
  stmts.foldl (transformStmt req) ⟨[], [], []⟩

/-- The names `transform` tests against `isSymbolRequested`, per statement:
export names for re-exports and declarations, *local* names for local
rebindings. -/
def stmtFilterKeys : Stmt → List String
  | .exportFrom _ specs => specs.map fun s =>
      match s with
      | .named _ exportName => exportName
      | .nspace exportName => exportName
  | .exportDecl name _ => [name]
  | .exportLocal specs => specs.map fun s => s.1
  | .exportAll _ => []

/-- The public export names a statement contributes. -/
def stmtPublicNames : Stmt → List String
  | .exportFrom _ specs => specs.map fun s =>
      match s with
      | .named _ exportName => exportName
      | .nspace exportName => exportName
  | .exportDecl name _ => [name]
  | .exportLocal specs => specs.map fun s => s.2.1
  | .exportAll _ => []

/-- All public export names visible to the transform (wildcard re-exports
contribute their names only after dependency resolution). -/
def publicNames (stmts : List Stmt) : List String :=
  (stmts.map stmtPublicNames).flatten

/-! ## Export-graph resolver (`Loader.buildExportGraph`)

One level of the recursion: the file's gathered source exports, its named
re-export groups, its wildcard re-exports, and the recursively built graphs
of dependencies (abstracted as a function from specifier to graph). -/

/-- `SourceExport`, reduced to the fields the graph claims observe. -/
structure SourceExport where
  name : String
  sourceName : String
  file : String
  deriving Repr, DecidableEq

/-- `buildExportGraph(filePath)` for one file: seed with the file's own
source exports; copy each named re-export found in the dependency graph
under its local export name (renaming); then merge every entry of each
wildcard dependency's graph.  All three phases write with `Map.set`. -/
def buildExportGraphStep
    (own : List (String × SourceExport))
    (externals : List (String × List (String × String)))
    (wildcards : List String)
    (depGraph : String → List (String × SourceExport)) : List (String × SourceExport) :=
  let m1 := own.foldl (fun m e => jsSet m e.1 e.2) []
  let m2 := externals.foldl (fun m se =>
      let gathered := depGraph se.1
      se.2.foldl (fun m ex =>
        match alGet gathered ex.2 with
        | none => m
        | some src => jsSet m ex.1 { src with name := ex.1 }) m) m1
  wildcards.foldl (fun m w => (depGraph w).foldl (fun m e => jsSet m e.1 e.2) m) m2

/-! ## Dependency recursion of `load` (`Loader.recurseDependencies`)

The inter-file recursion with the in-progress cycle cut.  Module resolution
is the identity (as in the test host), and the exports and links of a
completed dependency load are abstracted to `[]`: termination and stub
placement do not depend on them.  The module graph `g` maps each file to the
dependency records its transform emits. -/

/-- The empty `Asset` stub `{id, exports:{}, links:{}, symbols:{}}`
substituted for an in-progress dependency. -/
def stubAsset (id : String) : Asset := ⟨id, [], [], []⟩

mutual

/-- One `load(filePath)` call: look up the file's dependency records and
recurse through them. -/
def loadRecAux : Nat → List (String × List Dependency) → List String → String →
    Option (List (String × Asset))
  | 0, _, _, _ => none
  | f+1, g, inProg, fp => recurseDeps f g inProg ((alGet g fp).getD []) []

/-- `recurseDependencies(dependencies)`: skip symbol-less records; substitute
the stub for files already in progress; otherwise recurse with the file
added to the in-progress set. -/
def recurseDeps : Nat → List (String × List Dependency) → List String → List Dependency →
    List (String × Asset) → Option (List (String × Asset))
  | _, _, _, [], acc => some acc
  | f, g, inProg, d :: rest, acc =>
      if d.symbols.isEmpty then recurseDeps f g inProg rest acc
      else if d.path ∈ inProg then
        recurseDeps f g inProg rest (jsSet acc d.path (stubAsset d.path))
      else
        match loadRecAux f g (d.path :: inProg) d.path with
        | none => none
        | some _ =>
            recurseDeps f g inProg rest (jsSet acc d.path ⟨d.path, [], [], d.symbols⟩)

end

/-- A top-level `load(filePath)`: the host adds the file to the in-progress
set before the loader runs. -/
def loadRec (fuel : Nat) (g : List (String × List Dependency)) (fp : String) :
    Option (List (String × Asset)) :=
  loadRecAux fuel g [fp] fp

/-! ## Further association-list lemmas used by the claims -/

/-- Entries without key `q` do not survive a filter that rejects `q`. -/
theorem alGet_filter_out {κ α : Type} [DecidableEq κ] (m : List (κ × α)) (f : κ × α → Bool)
    (q : κ) (hq : ∀ v, f (q, v) = false) : alGet (m.filter f) q = none := by
  induction m with
  | nil => rfl
  | cons e rest ih =>
    by_cases hfe : f e = true
    · have he : e.1 ≠ q := by
        intro he
        rw [show e = (q, e.2) from Prod.ext he rfl] at hfe
        rw [hq e.2] at hfe
        exact Bool.false_ne_true hfe
      simp [List.filter, hfe, alGet, he, ih]
    · simp [List.filter, hfe, ih]

/-- Writing entries none of which has key `n` does not change the lookup
at `n`. -/
theorem foldl_jsSet_lookup_skip {α : Type} (entries : List (String × α))
    (m0 : List (String × α)) (n : String) (h : ∀ x ∈ entries, x.1 ≠ n) :
    alGet (entries.foldl (fun m e => jsSet m e.1 e.2) m0) n = alGet m0 n := by
  induction entries generalizing m0 with
  | nil => rfl
  | cons e rest ih =>
    have hne : n ≠ e.1 := fun hn => (h e (by simp)) hn.symm
    simp only [List.foldl_cons]
    rw [ih (jsSet m0 e.1 e.2) (fun x hx => h x (by simp [hx])),
        jsSet_alGet_other m0 e.1 n e.2 hne]

/-- Writing a duplicate-free entry list over a map: keys of the list read
back their written value; other keys read the original map. -/
theorem foldl_jsSet_lookup {α : Type} (entries : List (String × α))
    (m0 : List (String × α)) (hnd : (entries.map Prod.fst).Nodup) (n : String) :
    alGet (entries.foldl (fun m e => jsSet m e.1 e.2) m0) n =
      ((alGet entries n).rec (alGet m0 n) fun v => some v) := by
  induction entries generalizing m0 with
  | nil => simp [alGet]
  | cons e rest ih =>
    simp only [List.map_cons, List.nodup_cons] at hnd
    by_cases hn : e.1 = n
    · subst hn
      have hrest : ∀ x ∈ rest, x.1 ≠ e.1 := by
        intro x hx he
        exact hnd.1 (he ▸ List.mem_map_of_mem Prod.fst hx)
      simp only [List.foldl_cons]
      rw [foldl_jsSet_lookup_skip rest (jsSet m0 e.1 e.2) e.1 hrest,
          jsSet_alGet_self]
      simp [alGet]
    · simp only [List.foldl_cons]
      rw [ih (jsSet m0 e.1 e.2) hnd.2]
      rw [jsSet_alGet_other m0 e.1 n e.2 (fun hq => hn hq.symm)]
      simp [alGet, hn]

/-! ## C10 — NodeId serialization round-trip -/

/-- C10: for colon-free file paths and symbols, `parseId` inverts both
`makeIdString` and `idToString`; the parse keeps only the first two
colon-separated segments (everything after the second is discarded); and
when the file path itself contains a colon the round-trip fails. -/
theorem c10_parseId_roundtrip :
    (∀ f s : List Char, ':' ∉ f → ':' ∉ s →
        parseId (makeIdString f s) = (f, some s) ∧
        parseId (idToString ⟨f, s⟩) = (f, some s)) ∧
    (∀ f s tail : List Char, ':' ∉ f → ':' ∉ s →
        parseId (f ++ ':' :: (s ++ ':' :: tail)) = (f, some s)) ∧
    (∀ f s : List Char, ':' ∈ f → (parseId (makeIdString f s)).1 ≠ f) := by
  refine ⟨?_, ?_, ?_⟩
  · intro f s hf hs
    constructor <;>
    · show parseId (f ++ ':' :: s) = (f, some s)
      unfold parseId
      rw [splitOnColon_append f s hf, splitOnColon_no_colon s hs]
  · intro f s tail hf hs
    unfold parseId
    rw [splitOnColon_append f (s ++ ':' :: tail) hf, splitOnColon_append s tail hs]
  · intro f s hf
    cases h : splitOnColon (makeIdString f s) with
    | nil => exact absurd h (splitOnColon_ne_nil _)
    | cons seg segs =>
      have hlt : seg.length < f.length :=
        splitOnColon_head_shorter f hf (':' :: s) seg segs h
      have hne : seg ≠ f := by
        intro he
        rw [he] at hlt
        exact absurd hlt (lt_irrefl _)
      unfold parseId
      rw [h]
      cases segs <;> simpa using hne

theorem c10_parseId_roundtrip_witness :
    parseId (makeIdString ['a'] ['b']) = (['a'], some ['b']) ∧
    parseId (idToString ⟨['a'], ['b']⟩) = (['a'], some ['b']) ∧
    parseId (['a'] ++ ':' :: (['b'] ++ ':' :: ['c'])) = (['a'], some ['b']) ∧
    (parseId (makeIdString ['a', ':', 'b'] ['c'])).1 ≠ ['a', ':', 'b'] :=
  ⟨(c10_parseId_roundtrip.1 ['a'] ['b'] (by decide) (by decide)).1,
   (c10_parseId_roundtrip.1 ['a'] ['b'] (by decide) (by decide)).2,
   c10_parseId_roundtrip.2.1 ['a'] ['b'] ['c'] (by decide) (by decide),
   c10_parseId_roundtrip.2.2 ['a', ':', 'b'] ['c'] (by decide)⟩

/-! ## C8 — `invalidateFile` removes exactly the file's entries -/

/-- C8: `invalidateFile(p)` empties the export-map entry, the AST entry and
every symbol-cache entry whose NodeId names `p`, and leaves every lookup for
another file — in all three caches — unchanged. -/
theorem c8_invalidateFile_frame {α β γ : Type} (c : LoaderCache α β γ) (p : String) :
    getExportsFromFile (invalidateFile c p) p = none ∧
    getAST (invalidateFile c p) p = none ∧
    (∀ s, getCachedSymbol (invalidateFile c p) (makeId p s) = none) ∧
    (∀ q, q ≠ p → getExportsFromFile (invalidateFile c p) q = getExportsFromFile c q) ∧
    (∀ q, q ≠ p → getAST (invalidateFile c p) q = getAST c q) ∧
    (∀ id : NodeId, id.file ≠ p → getCachedSymbol (invalidateFile c p) id = getCachedSymbol c id) := by
  simp only [invalidateFile, deleteSymbolsFromFile, getExportsFromFile, getAST,
    getCachedSymbol, makeId]
  refine ⟨?_, ?_, ?_, ?_, ?_, ?_⟩
  · exact alGet_filter_out _ _ p (by simp)
  · exact alGet_filter_out _ _ p (by simp)
  · intro s
    exact alGet_filter_out c.symbolCache
      (fun e => decide (e.1.file ≠ p)) (⟨p, s⟩ : NodeId) (by simp)
  · intro q hq
    exact alGet_filter _ _ q (by simp [hq])
  · intro q hq
    exact alGet_filter _ _ q (by simp [hq])
  · intro id hid
    exact alGet_filter _ _ id (by simp [hid])

theorem c8_invalidateFile_frame_witness :
    getExportsFromFile (invalidateFile
      (⟨[(⟨"a", "x"⟩, 1), (⟨"b", "y"⟩, 2)], [("a", 10), ("b", 20)], [("a", 7), ("b", 8)]⟩ :
        LoaderCache Nat Nat Nat) "a") "a" = none ∧
    getCachedSymbol (invalidateFile
      (⟨[(⟨"a", "x"⟩, 1), (⟨"b", "y"⟩, 2)], [("a", 10), ("b", 20)], [("a", 7), ("b", 8)]⟩ :
        LoaderCache Nat Nat Nat) "a") ⟨"b", "y"⟩ = some 2 := by
  have h := c8_invalidateFile_frame
    (⟨[(⟨"a", "x"⟩, 1), (⟨"b", "y"⟩, 2)], [("a", 10), ("b", 20)], [("a", 7), ("b", 8)]⟩ :
      LoaderCache Nat Nat Nat) "a"
  refine ⟨h.1, ?_⟩
  rw [h.2.2.2.2.2 (⟨"b", "y"⟩ : NodeId) (by decide)]
  rfl

/-! ## C9 — `addDependency` aggregation by specifier -/

/-- C9: `addDependency` finds and amends the existing entry for the
specifier but then pushes a second record anyway, so after two calls for the
same specifier the dependency list holds two entries for it (the first with
the merged symbol map), not one. -/
theorem c9_addDependency_duplicate :
    addDependency (addDependency [] "a" [("x", "x")]) "a" [("y", "y")] =
      [⟨"a", [("x", "x"), ("y", "y")]⟩, ⟨"a", [("y", "y")]⟩] ∧
    (addDependency (addDependency [] "a" [("x", "x")]) "a" [("y", "y")]).countP
      (fun d => d.path = "a") = 2 := by
  exact ⟨rfl, rfl⟩

/-! ## C3 — export-graph merge order -/

/-- C3 counterexample: a file with its own source export `X` and a wildcard
re-export from `"a"` which also exports `X`.  The claim says the wildcard
entry must not overwrite the already-present own entry, but
`buildExportGraph` writes wildcard entries unconditionally, so the lookup
returns the wildcard's entry. -/
theorem c3_wildcard_no_overwrite_counterexample :
    alGet (buildExportGraphStep [("X", ⟨"X", "X", "self"⟩)] [] ["a"]
        (fun _ => [("X", ⟨"X", "X", "a"⟩)])) "X" = some ⟨"X", "X", "a"⟩ ∧
    (⟨"X", "X", "a"⟩ : SourceExport) ≠ ⟨"X", "X", "self"⟩ := by
  constructor
  · rfl
  · decide

/-- C3 amended: the export map is built in the order own source exports,
then named re-exports, then wildcards, each phase writing with `Map.set`, so
a *later* phase overwrites earlier entries: a named re-export overwrites an
own entry of the same name (as the claim says), and a wildcard overwrites
anything written before it (contrary to the claim).  The consequence the
claim draws still holds: `export * from "a"; export {Foo as Bar} from "a"`
exposes every export of `a` plus `Bar`, provided `Bar` is not itself one of
`a`'s export names. -/
theorem c3_exportGraph_overwrite_order :
    (∀ (own : List (String × SourceExport)) (src n srcName : String)
        (dg : String → List (String × SourceExport)) (e : SourceExport),
        alGet (dg src) srcName = some e →
        alGet (buildExportGraphStep own [(src, [(n, srcName)])] [] dg) n =
          some { e with name := n }) ∧
    (∀ (own : List (String × SourceExport)) (externals : List (String × List (String × String)))
        (w : String) (dg : String → List (String × SourceExport)) (n : String)
        (e : SourceExport),
        ((dg w).map Prod.fst).Nodup → alGet (dg w) n = some e →
        alGet (buildExportGraphStep own externals [w] dg) n = some e) ∧
    (∀ (aG : List (String × SourceExport)) (src Foo Bar : String) (e : SourceExport),
        (aG.map Prod.fst).Nodup → alGet aG Bar = none → alGet aG Foo = some e →
        alGet (buildExportGraphStep [] [(src, [(Bar, Foo)])] [src] (fun _ => aG)) Bar =
          some { e with name := Bar } ∧
        ∀ (n : String) (e2 : SourceExport), alGet aG n = some e2 →
          alGet (buildExportGraphStep [] [(src, [(Bar, Foo)])] [src] (fun _ => aG)) n =
            some e2) := by
  refine ⟨?_, ?_, ?_⟩
  · intro own src n srcName dg e he
    simp only [buildExportGraphStep, List.foldl_cons, List.foldl_nil, he]
    exact jsSet_alGet_self _ n _
  · intro own externals w dg n e hnd he
    simp only [buildExportGraphStep, List.foldl_cons, List.foldl_nil]
    rw [foldl_jsSet_lookup (dg w) _ hnd n, he]
  · intro aG src Foo Bar e hnd hBar hFoo
    constructor
    · simp only [buildExportGraphStep, List.foldl_cons, List.foldl_nil, hFoo]
      rw [foldl_jsSet_lookup aG _ hnd Bar, hBar]
      exact jsSet_alGet_self _ Bar _
    · intro n e2 hn
      simp only [buildExportGraphStep, List.foldl_cons, List.foldl_nil, hFoo]
      rw [foldl_jsSet_lookup aG _ hnd n, hn]

theorem c3_exportGraph_overwrite_order_witness :
    alGet (buildExportGraphStep [] [("a", [("Bar", "Foo")])] ["a"]
        (fun _ => [("Foo", ⟨"Foo", "Foo", "foo.ts"⟩), ("Qux", ⟨"Qux", "Qux", "a"⟩)])) "Bar" =
      some ⟨"Bar", "Foo", "foo.ts"⟩ ∧
    alGet (buildExportGraphStep [] [("a", [("Bar", "Foo")])] ["a"]
        (fun _ => [("Foo", ⟨"Foo", "Foo", "foo.ts"⟩), ("Qux", ⟨"Qux", "Qux", "a"⟩)])) "Foo" =
      some ⟨"Foo", "Foo", "foo.ts"⟩ ∧
    alGet (buildExportGraphStep [] [("a", [("Bar", "Foo")])] ["a"]
        (fun _ => [("Foo", ⟨"Foo", "Foo", "foo.ts"⟩), ("Qux", ⟨"Qux", "Qux", "a"⟩)])) "Qux" =
      some ⟨"Qux", "Qux", "a"⟩ := by
  have h := c3_exportGraph_overwrite_order.2.2
    [("Foo", ⟨"Foo", "Foo", "foo.ts"⟩), ("Qux", ⟨"Qux", "Qux", "a"⟩)] "a" "Foo" "Bar"
    ⟨"Foo", "Foo", "foo.ts"⟩ (by decide) (by rfl) (by rfl)
  exact ⟨h.1, h.2 "Foo" ⟨"Foo", "Foo", "foo.ts"⟩ (by rfl),
    h.2 "Qux" ⟨"Qux", "Qux", "a"⟩ (by rfl)⟩

/-! ## C2 — `Omit` removes exactly the resolved keys -/

/-- `alGet` succeeds exactly on the keys of the map. -/
theorem alGet_isSome_iff_mem {κ α : Type} [DecidableEq κ] (m : List (κ × α)) (k : κ) :
    (alGet m k).isSome ↔ k ∈ m.map Prod.fst := by
  induction m with
  | nil => simp [alGet]
  | cons e rest ih =>
    by_cases he : e.1 = k
    · simp [alGet, he]
    · have hke : ¬ k = e.1 := fun h => he h.symm
      simp [alGet, he, ih, hke]

/-- The `Set`-collection fold of `performOmit` over string-literal elements
with duplicate-free values returns exactly those values. -/
theorem omitCollect_fold (ks : List String) :
    ∀ acc, ks.Nodup → (∀ k ∈ ks, k ∉ acc) →
    (ks.map fun s => Node.strN (some s)).foldl (fun acc e =>
      match e with
      | .strN (some v) => if acc.contains v then acc else acc ++ [v]
      | _ => acc) acc = acc ++ ks := by
  induction ks with
  | nil => intro acc _ _; simp
  | cons k rest ih =>
    intro acc hnd hk
    simp only [List.nodup_cons] at hnd
    have hkacc : acc.contains k = false := by
      simpa using hk k (by simp)
    simp only [List.map_cons, List.foldl_cons, hkacc]
    rw [show ((if false = true then acc else acc ++ [k]) : List String) = acc ++ [k] by simp]
    rw [ih (acc ++ [k]) hnd.2]
    · simp
    · intro r hr
      simp only [List.mem_append, List.mem_singleton, not_or]
      exact ⟨hk r (by simp [hr]), fun he => hnd.1 (he ▸ hr)⟩

/-- Filtering away a duplicate-free set of keys that are all present in a
duplicate-free-keyed property map removes exactly one entry per key. -/
theorem filter_out_keys_length (props : List (String × Node)) :
    ∀ ks : List String, (props.map Prod.fst).Nodup → ks.Nodup →
    (∀ k ∈ ks, (alGet props k).isSome) →
    (props.filter fun e => ¬ ks.contains e.1).length = props.length - ks.length := by
  induction props with
  | nil =>
    intro ks _ _ hks
    have : ks = [] := by
      cases ks with
      | nil => rfl
      | cons k rest => simpa [alGet] using hks k (by simp)
    simp [this]
  | cons e rest ih =>
    intro ks hp hnd hks
    simp only [List.map_cons, List.nodup_cons] at hp
    by_cases he : e.1 ∈ ks
    · have hcont : ks.contains e.1 = true := by simpa using he
      have hcongr : (rest.filter fun x => ¬ ks.contains x.1) =
          (rest.filter fun x => ¬ (ks.erase e.1).contains x.1) := by
        apply List.filter_congr
        intro x hx
        have hxe : x.1 ≠ e.1 := by
          intro hxe
          exact hp.1 (hxe ▸ List.mem_map_of_mem Prod.fst hx)
        simp [List.mem_erase_of_ne hxe]
      have hrest : ∀ k ∈ ks.erase e.1, (alGet rest k).isSome := by
        intro k hkmem
        have hkks : k ∈ ks := List.mem_of_mem_erase hkmem
        have hkne : k ≠ e.1 := by
          intro hkeq
          subst hkeq
          exact (List.Nodup.not_mem_erase hnd) hkmem
        have hne : ¬ (e.1 = k) := fun h => hkne h.symm
        have := hks k hkks
        simpa [alGet, hne] using this
      have hlen := ih (ks.erase e.1) hp.2 (hnd.erase e.1) hrest
      have hlene : (ks.erase e.1).length = ks.length - 1 := List.length_erase_of_mem he
      have hkslen : 1 ≤ ks.length := List.length_pos.mpr (by rintro rfl; simp at he)
      rw [show (List.filter (fun x => ¬ ks.contains x.1) (e :: rest) : List (String × Node)) =
            List.filter (fun x => ¬ ks.contains x.1) rest from by
          simp [List.filter_cons, he]]
      rw [hcongr, hlen, hlene]
      simp only [List.length_cons]
      omega
    · have hcont : ks.contains e.1 = false := by simpa using he
      have hrest : ∀ k ∈ ks, (alGet rest k).isSome := by
        intro k hkks
        have hkne : k ≠ e.1 := fun hkeq => he (hkeq ▸ hkks)
        have hne : ¬ (e.1 = k) := fun h => hkne h.symm
        have := hks k hkks
        simpa [alGet, hne] using this
      have hsub : ks.length ≤ rest.length := by
        have hsubset : ks ⊆ rest.map Prod.fst := by
          intro k hkks
          exact (alGet_isSome_iff_mem rest k).mp (hrest k hkks)
        calc ks.length ≤ (rest.map Prod.fst).length :=
              (List.Nodup.subperm hnd hsubset).length_le
          _ = rest.length := by simp
      have hlen := ih ks hp.2 hnd hrest
      rw [show (List.filter (fun x => ¬ ks.contains x.1) (e :: rest) : List (String × Node)) =
            e :: List.filter (fun x => ¬ ks.contains x.1) rest from by
          simp [List.filter_cons, he]]
      simp only [List.length_cons]
      rw [hlen]
      omega

/-- C2: whenever `base` resolves (through links, applications and aliases)
to an interface whose property keys are duplicate-free, and the key operand
resolves to a union whose flattened elements are exactly a duplicate-free
list of non-empty string literals all present among the interface's
properties, `performOmit` returns the same interface with exactly those
properties removed — every remaining property is untouched and the result
has `props.length - ks.length` properties. -/
theorem c2_performOmit_removes_keys
    (f : Nat) (nodes : List (String × Node)) (deps : List (String × Asset))
    (base toOmit : Node) (id nm : String) (exts : List Node)
    (props : List (String × Node)) (tps : List Node)
    (elems : List Node) (ks : List String)
    (hbase : resolveValue f nodes deps base = some (.iface id nm exts props tps))
    (homit : resolveValue f nodes deps toOmit = some (.union elems))
    (hflat : resolveUnionElements f nodes deps (.union elems) =
      some (ks.map fun s => Node.strN (some s)))
    (hkeys : (props.map Prod.fst).Nodup)
    (hnd : ks.Nodup)
    (hmem : ∀ k ∈ ks, (alGet props k).isSome) :
    performOmit f nodes deps base toOmit =
      some (.iface id nm exts (props.filter fun e => ¬ ks.contains e.1) tps) ∧
    (props.filter fun e => ¬ ks.contains e.1).length = props.length - ks.length := by
  constructor
  · unfold performOmit
    rw [hbase, homit]
    simp only [Option.bind_eq_bind, Option.some_bind]
    unfold omitCollectKeys
    rw [hflat]
    simp only [Option.bind_eq_bind, Option.some_bind]
    rw [omitCollect_fold ks [] hnd (by simp)]
    simp only [List.nil_append]
    cases hk : ks with
    | nil => simp [hk, List.filter_true]
    | cons k rest => simp [hk]
  · exact filter_out_keys_length props ks hkeys hnd hmem

/-- The properties of the `Omit` scenario interface from the spec
(`interface Base {foo; bar; baz; onChange; onClick; className; style}`). -/
def c2Props : List (String × Node) :=
  [("foo", .property "foo" (.strN none) false none),
   ("bar", .property "bar" (.strN none) false none),
   ("baz", .property "baz" (.numN none) false none),
   ("onChange", .property "onChange" (.strN none) false none),
   ("onClick", .property "onClick" (.strN none) false none),
   ("className", .property "className" (.strN none) false none),
   ("style", .property "style" (.strN none) false none)]

def c2Base : Node := .iface "a:Base" "Base" [] c2Props []

/-- `Handlers | 'bar'` with `type Handlers = 'onChange' | 'onClick'`
already collapsed to its union value (a nested union). -/
def c2Elems : List Node :=
  [.union [.strN (some "onChange"), .strN (some "onClick")], .strN (some "bar")]

theorem c2_performOmit_removes_keys_witness :
    performOmit 20 [] [] c2Base (.union c2Elems) =
      some (.iface "a:Base" "Base" []
        (c2Props.filter fun e => ¬ (["onChange", "onClick", "bar"] : List String).contains e.1)
        []) ∧
    (c2Props.filter fun e =>
        ¬ (["onChange", "onClick", "bar"] : List String).contains e.1).length =
      c2Props.length - (["onChange", "onClick", "bar"] : List String).length :=
  c2_performOmit_removes_keys 20 [] [] c2Base (.union c2Elems) "a:Base" "Base" [] c2Props []
    c2Elems ["onChange", "onClick", "bar"]
    (by rfl) (by rfl) (by rfl) (by decide) (by decide) (by decide)

/-! ## C1 — inheritedFrom attribution in merge-extensions -/

/-- Reading `inheritedFrom` off a property or method node. -/
def propInheritedFrom : Node → Option String
  | .property _ _ _ ih => ih
  | .methodN _ _ _ ih => ih
  | _ => none

/-- Look up a property of an interface node. -/
def ifaceProp (n : Node) (k : String) : Option Node :=
  match n with
  | .iface _ _ _ props _ => alGet props k
  | _ => none

/-- `foldl_jsSet_lookup_skip` for a write that transforms the values. -/
theorem foldl_jsSetMap_lookup_skip {α : Type} (g : α → α) (entries : List (String × α))
    (m0 : List (String × α)) (n : String) (h : ∀ x ∈ entries, x.1 ≠ n) :
    alGet (entries.foldl (fun m e => jsSet m e.1 (g e.2)) m0) n = alGet m0 n := by
  induction entries generalizing m0 with
  | nil => rfl
  | cons e rest ih =>
    have hne : n ≠ e.1 := fun hn => (h e (by simp)) hn.symm
    simp only [List.foldl_cons]
    rw [ih (jsSet m0 e.1 (g e.2)) (fun x hx => h x (by simp [hx])),
        jsSet_alGet_other m0 e.1 n (g e.2) hne]

/-- `foldl_jsSet_lookup` for a write that transforms the values. -/
theorem foldl_jsSetMap_lookup {α : Type} (g : α → α) (entries : List (String × α))
    (m0 : List (String × α)) (hnd : (entries.map Prod.fst).Nodup) (n : String) :
    alGet (entries.foldl (fun m e => jsSet m e.1 (g e.2)) m0) n =
      ((alGet entries n).rec (alGet m0 n) fun v => some (g v)) := by
  induction entries generalizing m0 with
  | nil => simp [alGet]
  | cons e rest ih =>
    simp only [List.map_cons, List.nodup_cons] at hnd
    by_cases hn : e.1 = n
    · subst hn
      have hrest : ∀ x ∈ rest, x.1 ≠ e.1 := by
        intro x hx he
        exact hnd.1 (he ▸ List.mem_map_of_mem Prod.fst hx)
      simp only [List.foldl_cons]
      rw [foldl_jsSetMap_lookup_skip g rest (jsSet m0 e.1 (g e.2)) e.1 hrest,
          jsSet_alGet_self]
      simp [alGet]
    · simp only [List.foldl_cons]
      rw [ih (jsSet m0 e.1 (g e.2)) hnd.2]
      rw [jsSet_alGet_other m0 e.1 n (g e.2) (fun hq => hn hq.symm)]
      simp [alGet, hn]

/-- `merge(target, source, ih)` reads back the stamped source value on
source keys (duplicate-free) and the target value on other keys. -/
theorem mergeProps_alGet_mem (target source : List (String × Node)) (ih : Option String)
    (hnd : (source.map Prod.fst).Nodup) (k : String) (v : Node)
    (h : alGet source k = some v) :
    alGet (mergeProps target source ih) k = some (withInherited ih v) := by
  unfold mergeProps
  rw [foldl_jsSetMap_lookup (withInherited ih) source target hnd k, h]

theorem mergeProps_alGet_skip (target source : List (String × Node)) (ih : Option String)
    (k : String) (h : ∀ x ∈ source, x.1 ≠ k) :
    alGet (mergeProps target source ih) k = alGet target k :=
  foldl_jsSetMap_lookup_skip (withInherited ih) source target k h

/-- The interface-flattening scenario `interface A { a }`,
`interface B extends A { b }`, `export interface C extends B { c }`, as the
transformer hands it to the linker (inner interfaces resolved in place). -/
def c1IfaceA : Node := .iface "a.ts:A" "A" [] [("a", .property "a" (.numN none) false none)] []

def c1IfaceB : Node :=
  .iface "a.ts:B" "B" [c1IfaceA] [("b", .property "b" (.strN none) false none)] []

def c1IfaceC : Node :=
  .iface "a.ts:C" "C" [c1IfaceB] [("c", .property "c" (.boolN none) false none)] []

def c1Asset : Asset := ⟨"a.ts", [("C", c1IfaceC)], [], [("C", "C")]⟩

/-- C1 counterexample: in the merge-extensions flattening of the scenario
interface `C`, the property `c` declared on `C` itself carries
`inheritedFrom = "a.ts:C"` — the interface's own id — not "unset" as the
claim states: `merge(properties, obj.properties, obj.id)` stamps the
interface's own properties with its own id. -/
theorem c1_own_property_stamped_counterexample :
    ((mergeExtensions 8 c1IfaceC).bind fun m => (ifaceProp m "c").map propInheritedFrom) =
      some (some "a.ts:C") ∧
    ((mergeExtensions 8 c1IfaceC).bind fun m => (ifaceProp m "c").map propInheritedFrom) ≠
      some none := by
  have h1 : ((mergeExtensions 8 c1IfaceC).bind fun m =>
      (ifaceProp m "c").map propInheritedFrom) = some (some "a.ts:C") := by rfl
  refine ⟨h1, ?_⟩
  rw [h1]
  simp

/-- C1 amended: in `mergeInterface`/`merge`, (i) every property declared on
the interface itself appears in the merged output with
`inheritedFrom = some(own id)` (not unset); (ii) a property copied from an
extension that itself merged to an interface keeps its already-stamped
transitive origin id, or receives the extension's id when unstamped; and
(iii) merge-extensions flattens the A/B/C scenario interface `C` to
properties `a, b, c` in that order carrying `inheritedFrom` `a.ts:A`,
`a.ts:B` and `a.ts:C` respectively. -/
theorem c1_mergeExtensions_attribution :
    (∀ (f : Nat) (id nm : String) (exts : List Node) (props : List (String × Node))
        (tps : List Node) (m : Node),
        mergeExtensions f (.iface id nm exts props tps) = some m →
        (props.map Prod.fst).Nodup →
        ∀ k v, alGet props k = some v →
          ∃ exts2 P, m = .iface id nm exts2 P tps ∧
            alGet P k = some (withInherited (some id) v)) ∧
    (∀ (f : Nat) (id nm idE nmE : String) (E : Node) (props pE : List (String × Node))
        (tps extsE tpsE : List Node) (m : Node),
        mergeExtensions (f+2) (.iface id nm [E] props tps) = some m →
        mergeExtensions f E = some (.iface idE nmE extsE pE tpsE) →
        (pE.map Prod.fst).Nodup →
        ∀ k v, alGet pE k = some v → (∀ x ∈ props, x.1 ≠ k) →
          ∃ exts2 P, m = .iface id nm exts2 P tps ∧
            alGet P k = some (withInherited (nodeIdOf E) v)) ∧
    mergeExtensions 8 c1IfaceC =
      some (.iface "a.ts:C" "C" []
        [("a", .property "a" (.numN none) false (some "a.ts:A")),
         ("b", .property "b" (.strN none) false (some "a.ts:B")),
         ("c", .property "c" (.boolN none) false (some "a.ts:C"))] []) := by
  refine ⟨?_, ?_, by rfl⟩
  · intro f id nm exts props tps m hm hnd k v hk
    cases f with
    | zero => simp [mergeExtensions] at hm
    | succ f =>
      simp only [mergeExtensions, unwrapBase] at hm
      cases hL : mergeExtList f exts [] [] with
      | none => rw [hL] at hm; simp at hm
      | some acc =>
        rw [hL] at hm
        simp only [Option.bind_eq_bind, Option.some_bind, Option.some.injEq] at hm
        refine ⟨acc.2, mergeProps acc.1 props (some id), hm.symm, ?_⟩
        exact mergeProps_alGet_mem acc.1 props (some id) hnd k v hk
  · intro f id nm idE nmE E props pE tps extsE tpsE m hm hE hnd k v hk hprops
    have step1 : mergeExtensions (f+2) (.iface id nm [E] props tps) =
        (mergeExtList (f+1) [E] [] []).bind fun acc =>
          some (.iface id nm acc.2 (mergeProps acc.1 props (some id)) tps) := rfl
    have step2 : mergeExtList (f+1) [E] [] [] =
        (mergeExtensions f E).bind fun merged =>
          match merged with
          | .iface _ _ _ mprops _ => mergeExtList f [] (mergeProps [] mprops (nodeIdOf E)) []
          | mm => mergeExtList f [] [] ([] ++ [mm]) := rfl
    rw [step1, step2, hE] at hm
    simp only [Option.bind_eq_bind, Option.some_bind] at hm
    cases f with
    | zero => simp [mergeExtList] at hm
    | succ f =>
      simp only [mergeExtList, Option.some_bind, Option.some.injEq] at hm
      refine ⟨[], mergeProps (mergeProps [] pE (nodeIdOf E)) props (some id), hm.symm, ?_⟩
      rw [mergeProps_alGet_skip _ props (some id) k hprops]
      exact mergeProps_alGet_mem [] pE (nodeIdOf E) hnd k v hk

theorem c1_mergeExtensions_attribution_witness :
    (∃ exts2 P,
        (.iface "f:I" "I" [] [("p", .property "p" (.numN none) false (some "f:I"))] [] : Node) =
          .iface "f:I" "I" exts2 P [] ∧
        alGet P "p" =
          some (withInherited (some "f:I") (.property "p" (.numN none) false none))) ∧
    (∃ exts2 P,
        (.iface "f:I2" "I2" []
            [("q", .property "q" (.strN none) false (some "f:Q")),
             ("p", .property "p" (.numN none) false (some "f:I2"))] [] : Node) =
          .iface "f:I2" "I2" exts2 P [] ∧
        alGet P "q" =
          some (withInherited
            (nodeIdOf (.iface "f:E" "E" [] [("q", .property "q" (.strN none) false (some "f:Q"))] []))
            (.property "q" (.strN none) false (some "f:Q")))) :=
  ⟨c1_mergeExtensions_attribution.1 3 "f:I" "I" []
      [("p", .property "p" (.numN none) false none)] []
      (.iface "f:I" "I" [] [("p", .property "p" (.numN none) false (some "f:I"))] [])
      (by rfl) (by simp) "p" (.property "p" (.numN none) false none) (by rfl),
   c1_mergeExtensions_attribution.2.1 2 "f:I2" "I2" "f:E" "E"
      (.iface "f:E" "E" [] [("q", .property "q" (.strN none) false (some "f:Q"))] [])
      [("p", .property "p" (.numN none) false none)]
      [("q", .property "q" (.strN none) false (some "f:Q"))]
      [] [] []
      (.iface "f:I2" "I2" []
        [("q", .property "q" (.strN none) false (some "f:Q")),
         ("p", .property "p" (.numN none) false (some "f:I2"))] [])
      (by rfl) (by rfl) (by simp) "q" (.property "q" (.strN none) false (some "f:Q"))
      (by rfl) (by simp)⟩

/-! ## C6 — renamed re-export (`export \x7b Base as Foo \x7d from "./base"`) -/

/-- `base.ts`: `export interface Base \x7b value: number \x7d` as it reaches the
linker. -/
def c6IfaceBase : Node :=
  .iface "base.ts:Base" "Base" [] [("value", .property "value" (.numN none) false none)] []

def c6BaseAsset : Asset := ⟨"base.ts", [("Base", c6IfaceBase)], [], [("Base", "Base")]⟩

/-- The linked `Base` node as the base load returns it (own property stamped). -/
def c6MergedBase : Node :=
  .iface "base.ts:Base" "Base" []
    [("value", .property "value" (.numN none) false (some "base.ts:Base"))] []

/-- The dependency record `recurseDependencies` hands the index load for
`./base`: the recursive load's exports and links, plus the transformer's
dependency symbol map `Foo → Base`. -/
def c6DepBase : Asset :=
  ⟨"base.ts", [("Base", c6MergedBase)], [("base.ts:Base", c6MergedBase)], [("Foo", "Base")]⟩

/-- `index.ts`: only `export \x7b Base as Foo \x7d from "./base"`; the transform
records no exported nodes and the own-symbol entry `Foo → Foo`. -/
def c6IdxAsset : Asset := ⟨"index.ts", [], [], [("Foo", "Foo")]⟩

def c6Deps : List (String × Asset) := [("./base", c6DepBase)]

/-- The node the index load exposes under `Foo`: the rename clone
`\x7b...processed[exportSymbol]\x7d; clone.name = exported`. -/
def c6FooNode : Node :=
  .iface "base.ts:Base" "Foo" []
    [("value", .property "value" (.numN none) false (some "base.ts:Base"))] []

/-- C6: loading `base.ts` exposes `Base`; loading `index.ts` (whose only
statement is `export \x7b Base as Foo \x7d from "./base"`) yields an exports map
with key `Foo` present and key `Base` absent, and the node under `Foo` has
`name = "Foo"` while its `id` is still the id of `Base` in `base.ts`. -/
theorem c6_rename_reexport :
    runPackager 18 c6BaseAsset [] =
      some ⟨[("Base", c6MergedBase)], [("base.ts:Base", c6MergedBase)]⟩ ∧
    (runPackager 18 c6IdxAsset c6Deps).map
        (fun r => (alGet r.exports "Foo", alGet r.exports "Base")) =
      some (some c6FooNode, none) ∧
    nodeNameOf c6FooNode = some "Foo" ∧
    nodeIdOf c6FooNode = nodeIdOf c6IfaceBase ∧
    nodeIdOf c6IfaceBase = some "base.ts:Base" := by
  have hB1 : processAsset 18 [] ⟨[], []⟩ c6BaseAsset =
      some ([("Base", c6MergedBase)],
        ⟨[("base.ts:Base", c6MergedBase)], [("base.ts", [("Base", c6MergedBase)])]⟩) := by
    rfl
  have hB2 : walkLinksTop 18 [("base.ts:Base", c6MergedBase)] [] []
      [("Base", c6MergedBase)] = some [("base.ts:Base", c6MergedBase)] := by
    rfl
  have hI1 : processAsset 18 c6Deps ⟨[], []⟩ c6IdxAsset =
      some ([("Foo", c6FooNode)],
        ⟨[("base.ts:Base", c6MergedBase)],
         [("index.ts", [("Foo", c6FooNode)]), ("base.ts", [("Base", c6MergedBase)])]⟩) := by
    rfl
  have hI2 : walkLinksTop 18 [("base.ts:Base", c6MergedBase)] c6Deps []
      [("Foo", c6FooNode)] = some [("base.ts:Base", c6MergedBase)] := by
    rfl
  refine ⟨?_, ?_, rfl, rfl, rfl⟩
  · simp only [runPackager, hB1, Option.bind_eq_bind, Option.some_bind, hB2]
    rfl
  · simp only [runPackager, hI1, Option.bind_eq_bind, Option.some_bind, hI2]
    rfl

/-! ## C5 — circular loads terminate via the in-progress stub cut -/

/-- Every module path that can ever be requested while recursing through the
dependency records of graph `g`. -/
def graphPaths (g : List (String × List Dependency)) : List String :=
  ((g.map Prod.snd).flatten.map Dependency.path).dedup

/-- A successful association-list lookup returns a stored entry. -/
theorem alGet_mem {κ α : Type} [DecidableEq κ] (m : List (κ × α)) (k : κ) (v : α)
    (h : alGet m k = some v) : (k, v) ∈ m := by
  induction m with
  | nil => simp [alGet] at h
  | cons e rest ih =>
    by_cases he : e.1 = k
    · simp only [alGet, if_pos he, Option.some.injEq] at h
      exact List.mem_cons.mpr (Or.inl (by cases e with | mk a b => simp_all))
    · simp only [alGet, if_neg he] at h
      exact List.mem_cons.mpr (Or.inr (ih h))

/-- An entry of `jsSet m k v` is an old entry or the written pair. -/
theorem mem_jsSet {α : Type} (m : List (String × α)) (k : String) (v : α)
    (p : String) (a : α) (h : (p, a) ∈ jsSet m k v) : (p, a) ∈ m ∨ (p = k ∧ a = v) := by
  unfold jsSet at h
  split at h
  · rcases List.mem_map.mp h with ⟨e, he, heq⟩
    by_cases hek : e.1 = k
    · rw [if_pos hek] at heq
      injection heq with h1 h2
      exact Or.inr ⟨h1.symm, h2.symm⟩
    · rw [if_neg hek] at heq
      exact Or.inl (heq ▸ he)
  · rcases List.mem_append.mp h with hm | hm
    · exact Or.inl hm
    · simp only [List.mem_singleton, Prod.mk.injEq] at hm
      exact Or.inr hm

/-- Filtering out a present element shortens the list strictly. -/
theorem length_filter_lt_of_mem_false {α : Type} (l : List α) (p : α → Bool) (x : α)
    (hx : x ∈ l) (hpx : p x = false) : (l.filter p).length < l.length := by
  induction l with
  | nil => simp at hx
  | cons e rest ih =>
    rcases List.mem_cons.mp hx with he | hmem
    · subst he
      have hle := List.length_filter_le p rest
      simp [List.filter_cons, hpx]
      omega
    · by_cases hpe : p e = true
      · have := ih hmem
        simp [List.filter_cons, hpe]
        omega
      · have := ih hmem
        have hpe' : p e = false := by revert hpe; cases p e <;> simp
        have hle := List.length_filter_le p rest
        simp [List.filter_cons, hpe']
        omega

/-- `recurseDependencies` succeeds as soon as each not-yet-in-progress,
non-empty dependency record loads successfully at the remaining fuel. -/
theorem recurseDeps_isSome (n : Nat) (g : List (String × List Dependency))
    (inProg : List String) :
    ∀ (ds : List Dependency) (acc : List (String × Asset)),
      (∀ d ∈ ds, d.symbols.isEmpty = false → d.path ∉ inProg →
        (loadRecAux n g (d.path :: inProg) d.path).isSome) →
      (recurseDeps n g inProg ds acc).isSome := by
  intro ds
  induction ds with
  | nil => intro acc _; simp [recurseDeps]
  | cons d rest ih =>
    intro acc H
    by_cases hs : d.symbols.isEmpty = true
    · simp only [recurseDeps, if_pos hs]
      exact ih acc fun x hx h1 h2 => H x (List.mem_cons_of_mem d hx) h1 h2
    · have hs' : d.symbols.isEmpty = false := by revert hs; cases d.symbols.isEmpty <;> simp
      by_cases hp : d.path ∈ inProg
      · simp only [recurseDeps, if_neg hs, if_pos hp]
        exact ih _ fun x hx h1 h2 => H x (List.mem_cons_of_mem d hx) h1 h2
      · have hload := H d (List.mem_cons_self d rest) hs' hp
        rcases Option.isSome_iff_exists.mp hload with ⟨x, hx⟩
        simp only [recurseDeps, if_neg hs, if_neg hp, hx]
        exact ih _ fun y hy h1 h2 => H y (List.mem_cons_of_mem d hy) h1 h2

/-- Every entry `recurseDependencies` records for a path that is already in
progress is exactly the empty stub asset. -/
theorem recurseDeps_stub (n : Nat) (g : List (String × List Dependency))
    (inProg : List String) :
    ∀ (ds : List Dependency) (acc res : List (String × Asset)),
      recurseDeps n g inProg ds acc = some res →
      (∀ p a, (p, a) ∈ acc → p ∈ inProg → a = stubAsset p) →
      ∀ p a, (p, a) ∈ res → p ∈ inProg → a = stubAsset p := by
  intro ds
  induction ds with
  | nil =>
    intro acc res hres hacc
    simp only [recurseDeps, Option.some.injEq] at hres
    exact hres ▸ hacc
  | cons d rest ih =>
    intro acc res hres hacc
    by_cases hs : d.symbols.isEmpty = true
    · simp only [recurseDeps, if_pos hs] at hres
      exact ih acc res hres hacc
    · by_cases hp : d.path ∈ inProg
      · simp only [recurseDeps, if_neg hs, if_pos hp] at hres
        refine ih _ res hres ?_
        intro p a hmem hpin
        rcases mem_jsSet _ _ _ _ _ hmem with hmem' | ⟨hpk, hav⟩
        · exact hacc p a hmem' hpin
        · subst hpk; exact hav
      · cases hload : loadRecAux n g (d.path :: inProg) d.path with
        | none => simp [recurseDeps, hs, hp, hload] at hres
        | some x =>
          simp only [recurseDeps, if_neg hs, if_neg hp, hload] at hres
          refine ih _ res hres ?_
          intro p a hmem hpin
          rcases mem_jsSet _ _ _ _ _ hmem with hmem' | ⟨hpk, hav⟩
          · exact hacc p a hmem' hpin
          · exact absurd (hpk ▸ hpin) hp

/-- Stub placement lifted to one `load` call. -/
theorem loadRecAux_stub (f : Nat) (g : List (String × List Dependency))
    (inProg : List String) (fp : String) (res : List (String × Asset))
    (h : loadRecAux f g inProg fp = some res) :
    ∀ p a, (p, a) ∈ res → p ∈ inProg → a = stubAsset p := by
  cases f with
  | zero => simp [loadRecAux] at h
  | succ n =>
    simp only [loadRecAux] at h
    exact recurseDeps_stub n g inProg _ [] res h
      fun p a hmem _ => absurd hmem (List.not_mem_nil _)

/-- Fuel one greater than the number of not-yet-visited module paths of the
graph always suffices: the in-progress cut bounds the recursion depth. -/
theorem loadRecAux_terminates :
    ∀ (f : Nat) (g : List (String × List Dependency)) (inProg : List String) (fp : String),
      ((graphPaths g).filter (fun p => decide (p ∉ inProg))).length + 1 ≤ f →
      (loadRecAux f g inProg fp).isSome := by
  intro f
  induction f using Nat.strong_induction_on with
  | _ f IH =>
    intro g inProg fp hf
    cases f with
    | zero => exact absurd hf (by omega)
    | succ n =>
      simp only [loadRecAux]
      apply recurseDeps_isSome
      intro d hd hsym hnotin
      have hdpath : d.path ∈ graphPaths g := by
        cases hg : alGet g fp with
        | none => rw [hg] at hd; simp at hd
        | some l =>
          rw [hg] at hd; simp only [Option.getD_some] at hd
          have hgl : (fp, l) ∈ g := alGet_mem g fp l hg
          have hmap : d.path ∈ (g.map Prod.snd).flatten.map Dependency.path := by
            apply List.mem_map_of_mem
            apply List.mem_flatten.mpr
            exact ⟨l, List.mem_map_of_mem Prod.snd hgl, hd⟩
          simpa [graphPaths, List.mem_dedup] using hmap
      apply IH n (Nat.lt_succ_self n) g (d.path :: inProg) d.path
      have hlt : ((graphPaths g).filter (fun p => decide (p ∉ d.path :: inProg))).length <
          ((graphPaths g).filter (fun p => decide (p ∉ inProg))).length := by
        have heq : (graphPaths g).filter (fun p => decide (p ∉ d.path :: inProg)) =
            ((graphPaths g).filter (fun p => decide (p ∉ inProg))).filter
              (fun p => decide (p ≠ d.path)) := by
          rw [List.filter_filter]
          apply List.filter_congr
          intro x _
          by_cases h1 : x = d.path <;> by_cases h2 : x ∈ inProg <;>
            simp [h1, h2, List.mem_cons]
        rw [heq]
        apply length_filter_lt_of_mem_false _ _ d.path
        · exact List.mem_filter.mpr ⟨hdpath, by simp [hnotin]⟩
        · simp
      omega

/-- The two-file circular barrel: `a` re-exports `X` from `b`, `b`
re-exports `Y` from `a`. -/
def c5G : List (String × List Dependency) :=
  [("a", [⟨"b", [("X", "X")]⟩]), ("b", [⟨"a", [("Y", "Y")]⟩])]

/-- C5: the recursive dependency load terminates on every module graph —
circular re-exports included — because fuel exceeding the number of
not-yet-in-progress module paths always suffices, and every dependency entry
recorded for a file already in the in-progress set is exactly the empty
stub asset rather than a recursive result. -/
theorem c5_circular_load_terminates :
    (∀ (fuel : Nat) (g : List (String × List Dependency)) (fp : String),
        ((graphPaths g).filter (fun p => decide (p ∉ [fp]))).length + 1 ≤ fuel →
        (loadRec fuel g fp).isSome) ∧
    (∀ (fuel : Nat) (g : List (String × List Dependency)) (inProg : List String)
        (fp : String) (res : List (String × Asset)),
        loadRecAux fuel g inProg fp = some res →
        ∀ p a, (p, a) ∈ res → p ∈ inProg → a = stubAsset p) := by
  constructor
  · intro fuel g fp hf
    exact loadRecAux_terminates fuel g [fp] fp hf
  · intro fuel g inProg fp res h
    exact loadRecAux_stub fuel g inProg fp res h

theorem c5_circular_load_terminates_witness :
    (((graphPaths c5G).filter (fun p => decide (p ∉ ["a"]))).length + 1 ≤ 3 ∧
      (loadRec 3 c5G "a").isSome) ∧
    (loadRecAux 1 c5G ["a", "b"] "a" = some [("b", stubAsset "b")] ∧
      ("b", stubAsset "b") ∈ [("b", stubAsset "b")] ∧ "b" ∈ (["a", "b"] : List String) ∧
      stubAsset "b" = stubAsset "b") :=
  ⟨⟨by decide, c5_circular_load_terminates.1 3 c5G "a" (by decide)⟩,
   ⟨by simp [loadRecAux, recurseDeps, c5G, alGet, jsSet, stubAsset], by simp, by decide,
    c5_circular_load_terminates.2 1 c5G ["a", "b"] "a" [("b", stubAsset "b")]
      (by simp [loadRecAux, recurseDeps, c5G, alGet, jsSet, stubAsset])
      "b" (stubAsset "b") (by simp) (by decide)⟩⟩

/-! ## C7 — requested-symbols filter versus an unrestricted load -/

theorem isSymbolRequested_of_mem {req : List String} {s : String} (h : s ∈ req) :
    isSymbolRequested (some req) s = true := by
  simp [isSymbolRequested, List.contains, List.elem_eq_mem, h]

/-- One statement transforms identically under `some req` and under no
request list as soon as every name the statement filters on is in `req`. -/
theorem transformStmt_req_eq (req : List String) (s : Stmt)
    (h : ∀ n ∈ stmtFilterKeys s, n ∈ req) (acc : TransformResult) :
    transformStmt (some req) acc s = transformStmt none acc s := by
  cases s with
  | exportFrom src specs =>
    simp only [transformStmt]
    have hfold : specs.foldl
        (fun (p : List (String × String) × List (String × String)) spec =>
          match spec with
          | .named sourceName exportName =>
              if isSymbolRequested (some req) exportName then
                (jsSet p.1 exportName exportName, jsSet p.2 exportName sourceName)
              else p
          | .nspace exportName =>
              if isSymbolRequested (some req) exportName then
                (jsSet p.1 exportName exportName, jsSet p.2 exportName "*")
              else p) (acc.symbols, []) =
        specs.foldl
        (fun (p : List (String × String) × List (String × String)) spec =>
          match spec with
          | .named sourceName exportName =>
              if isSymbolRequested none exportName then
                (jsSet p.1 exportName exportName, jsSet p.2 exportName sourceName)
              else p
          | .nspace exportName =>
              if isSymbolRequested none exportName then
                (jsSet p.1 exportName exportName, jsSet p.2 exportName "*")
              else p) (acc.symbols, []) := by
      apply List.foldl_ext
      intro p sp hsp
      cases sp with
      | named sn en =>
        have hen : en ∈ req := by
          apply h
          simp only [stmtFilterKeys, List.mem_map]
          exact ⟨.named sn en, hsp, rfl⟩
        simp [isSymbolRequested_of_mem hen, isSymbolRequested, hen]
      | nspace en =>
        have hen : en ∈ req := by
          apply h
          simp only [stmtFilterKeys, List.mem_map]
          exact ⟨.nspace en, hsp, rfl⟩
        simp [isSymbolRequested_of_mem hen, isSymbolRequested, hen]
    rw [hfold]
  | exportDecl name node =>
    have hname : name ∈ req := h name (by simp [stmtFilterKeys])
    simp [transformStmt, isSymbolRequested, hname]
  | exportLocal specs =>
    simp only [transformStmt]
    apply List.foldl_ext
    intro a sp hsp
    have hloc : sp.1 ∈ req := by
      apply h
      simp only [stmtFilterKeys, List.mem_map]
      exact ⟨sp, hsp, rfl⟩
    simp [isSymbolRequested, hloc]
  | exportAll src => rfl

/-- C7 amended: loading with an explicit request list returns the same
transform output as loading with the list omitted precisely when the list
covers every name the transform filters on — the *export* names of
re-exports and declarations but the *local* names of `export \x7bFoo as F\x7d`
statements.  The claim's original form (request = the public export names)
fails because that branch filters on the local name. -/
theorem c7_transform_full_request (stmts : List Stmt) (req : List String)
    (h : ∀ s ∈ stmts, ∀ n ∈ stmtFilterKeys s, n ∈ req) :
    transform stmts (some req) = transform stmts none := by
  unfold transform
  exact List.foldl_ext _ _ _ fun acc s hs => transformStmt_req_eq req s (h s hs) acc

/-- The local-rename file: a single `export \x7bFoo as F\x7d` statement
rebinding the locally declared interface `Foo`. -/
def c7Node : Node := .iface "f.ts:Foo" "Foo" [] [] []

def c7Stmts : List Stmt := [.exportLocal [("Foo", "F", some c7Node)]]

/-- C7 counterexample: the file's only public name is `F`, yet requesting
exactly `[F]` drops the export entirely — `transform` filters the
`export \x7bFoo as F\x7d` branch on the local name `Foo` — so the load result
differs from the unrestricted load. -/
theorem c7_full_request_drops_local_rename_counterexample :
    publicNames c7Stmts = ["F"] ∧
    (transform c7Stmts none).exportedNodes = [("F", .iface "f.ts:Foo" "F" [] [] [])] ∧
    (transform c7Stmts (some (publicNames c7Stmts))).exportedNodes = [] ∧
    (runPackager 8 ⟨"f.ts", (transform c7Stmts none).exportedNodes, [],
        (transform c7Stmts none).symbols⟩ []).map (fun r => alGet r.exports "F") ≠
      (runPackager 8 ⟨"f.ts", (transform c7Stmts (some (publicNames c7Stmts))).exportedNodes,
          [], (transform c7Stmts (some (publicNames c7Stmts))).symbols⟩ []).map
        (fun r => alGet r.exports "F") := by
  refine ⟨rfl, rfl, rfl, ?_⟩
  have h1 : (runPackager 8 ⟨"f.ts", (transform c7Stmts none).exportedNodes, [],
      (transform c7Stmts none).symbols⟩ []).map (fun r => alGet r.exports "F") =
      some (some (.bare "F")) := by rfl
  have h2 : (runPackager 8 ⟨"f.ts",
      (transform c7Stmts (some (publicNames c7Stmts))).exportedNodes, [],
      (transform c7Stmts (some (publicNames c7Stmts))).symbols⟩ []).map
      (fun r => alGet r.exports "F") = some none := by rfl
  rw [h1, h2]
  simp

theorem c7_transform_full_request_witness :
    (∀ s ∈ c7Stmts, ∀ n ∈ stmtFilterKeys s, n ∈ ["Foo"]) ∧
    transform c7Stmts (some ["Foo"]) = transform c7Stmts none :=
  ⟨by
    intro s hs n hn
    simp only [c7Stmts, List.mem_singleton] at hs
    subst hs
    simp [stmtFilterKeys] at hn
    simp [hn],
   c7_transform_full_request c7Stmts ["Foo"] (by
    intro s hs n hn
    simp only [c7Stmts, List.mem_singleton] at hs
    subst hs
    simp [stmtFilterKeys] at hn
    simp [hn])⟩

/-! ## C4 — reference nodes in the linker output

`refFree` is the claim's invariant: no `reference` node anywhere in a tree.
`dfree` allows references (they are what the walker resolves) but demands
that every type-parameter *default* is fully reference-free: the walker
substitutes raw defaults verbatim. -/

/-- Root-level reference test. -/
def isRootRef : Node → Bool
  | .reference _ _ _ => true
  | _ => false

mutual

/-- No `reference` node anywhere in the tree. -/
def refFree : Node → Bool
  | .reference _ _ _ => false
  | .union els => refFreeList els
  | .application b tps => refFree b && refFreeList tps
  | .alias _ _ v tps => refFree v && refFreeList tps
  | .iface _ _ exts props tps => refFreeList exts && refFreeProps props && refFreeList tps
  | .objectN props => refFreeProps props
  | .property _ v _ _ => refFree v
  | .methodN _ v _ _ => refFree v
  | .keyofN v => refFree v
  | .typeParameter _ c d => refFreeOpt c && refFreeOpt d
  | .component _ _ p tps => refFreeOpt p && refFreeList tps
  | _ => true

def refFreeList : List Node → Bool
  | [] => true
  | x :: xs => refFree x && refFreeList xs

def refFreeProps : List (String × Node) → Bool
  | [] => true
  | (_, x) :: xs => refFree x && refFreeProps xs

def refFreeOpt : Option Node → Bool
  | none => true
  | some v => refFree v

end

mutual

/-- Every type-parameter default in the tree is fully reference-free. -/
def dfree : Node → Bool
  | .union els => dfreeList els
  | .application b tps => dfree b && dfreeList tps
  | .alias _ _ v tps => dfree v && dfreeList tps
  | .iface _ _ exts props tps => dfreeList exts && dfreeProps props && dfreeList tps
  | .objectN props => dfreeProps props
  | .property _ v _ _ => dfree v
  | .methodN _ v _ _ => dfree v
  | .keyofN v => dfree v
  | .typeParameter _ c d => dfreeOpt c && refFreeOpt d && dfreeOpt d
  | .component _ _ p tps => dfreeOpt p && dfreeList tps
  | _ => true

def dfreeList : List Node → Bool
  | [] => true
  | x :: xs => dfree x && dfreeList xs

def dfreeProps : List (String × Node) → Bool
  | [] => true
  | (_, x) :: xs => dfree x && dfreeProps xs

def dfreeOpt : Option Node → Bool
  | none => true
  | some v => dfree v

end

theorem refFreeList_iff (l : List Node) :
    refFreeList l = true ↔ ∀ x ∈ l, refFree x = true := by
  induction l with
  | nil => simp [refFreeList]
  | cons x xs ih => simp [refFreeList, ih]

theorem refFreeProps_iff (m : List (String × Node)) :
    refFreeProps m = true ↔ ∀ e ∈ m, refFree e.2 = true := by
  induction m with
  | nil => simp [refFreeProps]
  | cons e rest ih =>
    cases e with
    | mk nm x => simp [refFreeProps, ih]

theorem dfreeList_iff (l : List Node) :
    dfreeList l = true ↔ ∀ x ∈ l, dfree x = true := by
  induction l with
  | nil => simp [dfreeList]
  | cons x xs ih => simp [dfreeList, ih]

theorem dfreeProps_iff (m : List (String × Node)) :
    dfreeProps m = true ↔ ∀ e ∈ m, dfree e.2 = true := by
  induction m with
  | nil => simp [dfreeProps]
  | cons e rest ih =>
    cases e with
    | mk nm x => simp [dfreeProps, ih]

/-- A reference-free node has a reference-free `constraint` field. -/
theorem constraint_refFree (p : Node) (h : refFree p = true) :
    refFreeOpt (nodeConstraintOf p) = true := by
  cases p <;> simp_all [refFree, nodeConstraintOf, refFreeOpt, Bool.and_eq_true]

/-- A default-free node has a fully reference-free `default` field. -/
theorem dflt_refFree (p : Node) (h : dfree p = true) :
    refFreeOpt (nodeDfltOf p) = true := by
  cases p <;> simp_all [dfree, nodeDfltOf, refFreeOpt, Bool.and_eq_true]

/-- `clone.name = ...` does not touch reference-freeness. -/
theorem setNodeName_refFree (n : Node) (nm : String) (h : refFree n = true) :
    refFree (setNodeName n nm) = true := by
  cases n <;> simpa [setNodeName, refFree] using h

/-- The `inheritedFrom` stamp does not touch reference-freeness. -/
theorem withInherited_refFree (ih : Option String) (n : Node) (h : refFree n = true) :
    refFree (withInherited ih n) = true := by
  cases n with
  | property nm v o old => cases old <;> simpa [withInherited, refFree] using h
  | methodN nm v o old => cases old <;> simpa [withInherited, refFree] using h
  | _ => simpa [withInherited] using h

/-- `jsSet` keeps an entry-wise property when the new value satisfies it. -/
theorem jsSet_forall {α : Type} (P : α → Prop) (m : List (String × α)) (k : String) (v : α)
    (hm : ∀ e ∈ m, P e.2) (hv : P v) : ∀ e ∈ jsSet m k v, P e.2 := by
  intro e he
  rcases mem_jsSet m k v e.1 e.2 (by simpa using he) with h | ⟨_, h⟩
  · exact hm _ h
  · exact h ▸ hv

/-- `Object.assign` keeps an entry-wise property of both maps. -/
theorem jsAssign_forall {α : Type} (P : α → Prop) (target source : List (String × α))
    (ht : ∀ e ∈ target, P e.2) (hs : ∀ e ∈ source, P e.2) :
    ∀ e ∈ jsAssign target source, P e.2 := by
  induction source generalizing target with
  | nil => simpa [jsAssign] using ht
  | cons s rest ih =>
    simp only [jsAssign, List.foldl_cons]
    exact ih (jsSet target s.1 s.2)
      (jsSet_forall P target s.1 s.2 ht (hs s (by simp)))
      (fun e he => hs e (by simp [he]))

/-- `merge` produces reference-free entries from reference-free inputs. -/
theorem mergeProps_refFree (target source : List (String × Node)) (ih : Option String)
    (ht : ∀ e ∈ target, refFree e.2 = true) (hs : ∀ e ∈ source, refFree e.2 = true) :
    ∀ e ∈ mergeProps target source ih, refFree e.2 = true := by
  induction source generalizing target with
  | nil => simpa [mergeProps] using ht
  | cons s rest ihx =>
    simp only [mergeProps, List.foldl_cons] at *
    exact ihx (jsSet target s.1 (withInherited ih s.2))
      (jsSet_forall (fun n => refFree n = true) target s.1 (withInherited ih s.2) ht
        (withInherited_refFree ih s.2 (hs s (by simp))))
      (fun e he => hs e (by simp [he]))

/-- `alGet` into an entry-wise property. -/
theorem alGet_forall {κ α : Type} [DecidableEq κ] (P : α → Prop) (m : List (κ × α))
    (hm : ∀ e ∈ m, P e.2) (k : κ) (v : α) (h : alGet m k = some v) : P v :=
  hm (k, v) (alGet_mem m k v h)

/-- Unwrapping an application or alias keeps reference-freeness. -/
theorem unwrapBase_refFree (b0 : Node) (h : refFree b0 = true) :
    refFree (unwrapBase b0) = true := by
  cases b0
  all_goals try exact h
  · rename_i base tps
    rw [show refFree (Node.application base tps) = (refFree base && refFreeList tps)
      from rfl, Bool.and_eq_true] at h
    exact h.1
  · rename_i id nm v tps
    rw [show refFree (Node.alias id nm v tps) = (refFree v && refFreeList tps)
      from rfl, Bool.and_eq_true] at h
    exact h.1

/-- `resolveValue` returns a reference-free node when its argument and both
lookup tables are reference-free. -/
theorem resolveValue_refFree :
    ∀ (f : Nat) (nodes : List (String × Node)) (deps : List (String × Asset)) (obj r : Node),
      (∀ e ∈ nodes, refFree e.2 = true) →
      (∀ d ∈ deps, ∀ e ∈ d.2.links, refFree e.2 = true) →
      refFree obj = true →
      resolveValue f nodes deps obj = some r → refFree r = true := by
  intro f
  induction f with
  | zero =>
    intro nodes deps obj r _ _ _ h
    simp [resolveValue] at h
  | succ f ih =>
    intro nodes deps obj r hnodes hlinks hobj h
    cases obj
    case link id =>
      simp only [resolveValue] at h
      cases hl : resolveLink nodes deps id with
      | none =>
        rw [hl] at h
        simp only [Option.some.injEq] at h
        exact h ▸ hobj
      | some rr =>
        rw [hl] at h
        have hrr : refFree rr = true := by
          unfold resolveLink at hl
          cases hn : alGet nodes id with
          | some n =>
            rw [hn] at hl
            injection hl with hh
            exact hh ▸ alGet_forall (fun n => refFree n = true) nodes hnodes id n hn
          | none =>
            rw [hn] at hl
            rcases List.exists_of_findSome?_eq_some hl with ⟨d, hd, hfd⟩
            exact alGet_forall (fun n => refFree n = true) _ (hlinks d hd) id rr hfd
        exact ih nodes deps rr r hnodes hlinks hrr h
    case application base tps =>
      simp only [resolveValue] at h
      have hb : refFree base = true := by
        rw [show refFree (Node.application base tps) = (refFree base && refFreeList tps)
          from rfl, Bool.and_eq_true] at hobj
        exact hobj.1
      exact ih nodes deps base r hnodes hlinks hb h
    all_goals try (simp only [resolveValue, Option.some.injEq] at h; exact h ▸ hobj)
    · rename_i id nm v tps
      simp only [resolveValue] at h
      have hv : refFree v = true := by
        rw [show refFree (Node.alias id nm v tps) = (refFree v && refFreeList tps)
          from rfl, Bool.and_eq_true] at hobj
        exact hobj.1
      exact ih nodes deps v r hnodes hlinks hv h

/-- Merge-extensions flattening preserves reference-freeness. -/
theorem mergeExtensions_refFree :
    ∀ f : Nat,
      (∀ b m, refFree b = true → mergeExtensions f b = some m → refFree m = true) ∧
      (∀ exts accP accE out,
        (∀ x ∈ exts, refFree x = true) → (∀ e ∈ accP, refFree e.2 = true) →
        (∀ x ∈ accE, refFree x = true) → mergeExtList f exts accP accE = some out →
        (∀ e ∈ out.1, refFree e.2 = true) ∧ (∀ x ∈ out.2, refFree x = true)) := by
  intro f
  induction f with
  | zero =>
    constructor
    · intro b m _ h; simp [mergeExtensions] at h
    · intro exts accP accE out _ _ _ h; simp [mergeExtList] at h
  | succ f ih =>
    constructor
    · intro b0 m hb0 h
      rw [show mergeExtensions (f+1) b0 = (match unwrapBase b0 with
        | Node.iface id nm exts props tps =>
            (mergeExtList f exts [] []).bind fun acc =>
              some (Node.iface id nm acc.2 (mergeProps acc.1 props (some id)) tps)
        | x => some x) from rfl] at h
      have hbf := unwrapBase_refFree b0 hb0
      cases hu : unwrapBase b0
      case iface id nm exts props tps =>
        rw [hu] at h hbf
        rw [show refFree (Node.iface id nm exts props tps)
            = ((refFreeList exts && refFreeProps props) && refFreeList tps) from rfl,
          Bool.and_eq_true, Bool.and_eq_true] at hbf
        simp only [Option.bind_eq_bind] at h
        rcases Option.bind_eq_some.mp h with ⟨acc, hacc, h⟩
        simp only [Option.some.injEq] at h
        have hout := (ih.2) exts [] [] acc
          ((refFreeList_iff exts).mp hbf.1.1) (by simp) (by simp) hacc
        subst h
        rw [show refFree (Node.iface id nm acc.2 (mergeProps acc.1 props (some id)) tps)
            = ((refFreeList acc.2 && refFreeProps (mergeProps acc.1 props (some id)))
                && refFreeList tps) from rfl,
          Bool.and_eq_true, Bool.and_eq_true]
        refine ⟨⟨(refFreeList_iff _).mpr hout.2, ?_⟩, hbf.2⟩
        exact (refFreeProps_iff _).mpr
          (mergeProps_refFree acc.1 props (some id) hout.1
            ((refFreeProps_iff props).mp hbf.1.2))
      all_goals
        rw [hu] at h hbf
        simp only [Option.some.injEq] at h
        exact h ▸ hbf
    · intro exts accP accE out hexts haccP haccE h
      cases exts with
      | nil =>
        simp only [mergeExtList, Option.some.injEq] at h
        subst h
        exact ⟨haccP, haccE⟩
      | cons ext rest =>
        simp only [mergeExtList, Option.bind_eq_bind] at h
        rcases Option.bind_eq_some.mp h with ⟨merged, hmg, h⟩
        have hmf : refFree merged = true := ih.1 ext merged (hexts ext (by simp)) hmg
        cases merged
        case iface idm nmm extsm mprops tpsm =>
          rw [show refFree (Node.iface idm nmm extsm mprops tpsm)
              = ((refFreeList extsm && refFreeProps mprops) && refFreeList tpsm) from rfl,
            Bool.and_eq_true, Bool.and_eq_true] at hmf
          exact ih.2 rest _ accE out (fun x hx => hexts x (by simp [hx]))
            (mergeProps_refFree accP mprops (nodeIdOf ext) haccP
              ((refFreeProps_iff mprops).mp hmf.1.2))
            haccE h
        all_goals
          exact ih.2 rest accP _ out (fun x hx => hexts x (by simp [hx])) haccP
            (by
              intro x hx
              rcases List.mem_append.mp hx with hx | hx
              · exact haccE x hx
              · simp only [List.mem_singleton] at hx
                exact hx ▸ hmf)
            h

/-- `performOmit` returns a reference-free node when its base argument and
both lookup tables are reference-free. -/
theorem performOmit_refFree (f : Nat) (nodes : List (String × Node))
    (deps : List (String × Asset)) (base0 toOmit0 r : Node)
    (hnodes : ∀ e ∈ nodes, refFree e.2 = true)
    (hlinks : ∀ d ∈ deps, ∀ e ∈ d.2.links, refFree e.2 = true)
    (hbase : refFree base0 = true)
    (h : performOmit f nodes deps base0 toOmit0 = some r) : refFree r = true := by
  simp only [performOmit, Option.bind_eq_bind] at h
  rcases Option.bind_eq_some.mp h with ⟨base, hb, h⟩
  rcases Option.bind_eq_some.mp h with ⟨toOmit, ht, h⟩
  have hbf : refFree base = true :=
    resolveValue_refFree f nodes deps base0 base hnodes hlinks hbase hb
  revert h hbf
  cases base
  case iface id nm exts props tps =>
    intro h hbf
    rw [show refFree (Node.iface id nm exts props tps)
        = ((refFreeList exts && refFreeProps props) && refFreeList tps) from rfl,
      Bool.and_eq_true, Bool.and_eq_true] at hbf
    simp only [Option.bind_eq_bind] at h
    rcases Option.bind_eq_some.mp h with ⟨keys, hk, h⟩
    split at h
    · simp only [Option.pure_def, Option.some.injEq] at h
      subst h
      rw [show refFree (Node.iface id nm exts props tps)
          = ((refFreeList exts && refFreeProps props) && refFreeList tps) from rfl,
        Bool.and_eq_true, Bool.and_eq_true]
      exact hbf
    · simp only [Option.pure_def, Option.some.injEq] at h
      subst h
      rw [show refFree (Node.iface id nm exts
            (props.filter fun e => ¬ keys.contains e.1) tps)
          = ((refFreeList exts
              && refFreeProps (props.filter fun e => ¬ keys.contains e.1))
              && refFreeList tps) from rfl,
        Bool.and_eq_true, Bool.and_eq_true]
      refine ⟨⟨hbf.1.1, ?_⟩, hbf.2⟩
      refine (refFreeProps_iff _).mpr fun e he => ?_
      exact (refFreeProps_iff props).mp hbf.1.2 e (List.mem_filter.mp he).1
  case objectN props =>
    intro h hbf
    simp only [Option.bind_eq_bind] at h
    rcases Option.bind_eq_some.mp h with ⟨keys, hk, h⟩
    rw [show refFree (Node.objectN props) = refFreeProps props from rfl] at hbf
    split at h
    · simp only [Option.pure_def, Option.some.injEq] at h
      subst h
      rw [show refFree (Node.objectN props) = refFreeProps props from rfl]
      exact hbf
    · simp only [Option.pure_def, Option.some.injEq] at h
      subst h
      rw [show refFree (Node.objectN (props.filter fun e => ¬ keys.contains e.1))
          = refFreeProps (props.filter fun e => ¬ keys.contains e.1) from rfl]
      refine (refFreeProps_iff _).mpr fun e he => ?_
      exact (refFreeProps_iff props).mp hbf e (List.mem_filter.mp he).1
  all_goals
    intro h hbf
    simp only [Option.pure_def, Option.some.injEq] at h
    exact h ▸ hbf

end TsDocs
